import Mathlib

/-!
Verification of the PersonalMailClient core (src-tauri) against its
natural-language specification.  Each subsystem touched by the claims is
shallowly embedded: bytes are `Nat` values kept below 256, Rust strings
are `String` or `List Char`, SQLite tables are Lean lists of row
structures, and the ambient randomness (AES-GCM nonces) is passed in
explicitly.  Definitions are direct transcriptions of the Rust source in
`src/src-tauri/src`; theorems at the end of the file settle the claims.
-/

set_option maxRecDepth 100000
set_option linter.unusedVariables false

namespace MailClient

/-! ### Bytes

Bytes are plain naturals, kept below 256 by hypotheses where it
matters. -/

/-- Pointwise XOR of two byte strings (truncates to the shorter one),
matching the behaviour of the CTR-mode XOR inside AES-GCM. -/
def xorBytes (a b : List Nat) : List Nat := List.zipWith (· ^^^ ·) a b

/-- Big-endian byte rendering of `n` into exactly `len` bytes. -/
def beBytes (n : Nat) (len : Nat) : List Nat :=
  (List.range len).map (fun i => n / 256 ^ (len - 1 - i) % 256)

/-! ### Base64 (the `base64` crate's `general_purpose::STANDARD` engine,
used by `Cipher::encrypt_bytes` / `Cipher::decrypt_bytes`) -/

/-- The standard base64 alphabet. -/
def b64Alphabet : List Char :=
  "ABCDEFGHIJKLMNOPQRSTUVWXYZabcdefghijklmnopqrstuvwxyz0123456789+/".toList

/-- Character for a 6-bit group. -/
def b64Char (n : Nat) : Char := b64Alphabet.getD n 'A'

/-- Inverse lookup in the base64 alphabet; `none` on foreign characters
(including the padding character). -/
def b64Index (c : Char) : Option Nat := b64Alphabet.findIdx? (fun x => x == c)

/-- Base64 encoding, 3 input bytes to 4 output characters with `=`
padding on the final partial group. -/
def b64EncodeGroups : List Nat → List Char
  | [] => []
  | [b0] => [b64Char (b0 / 4), b64Char (b0 % 4 * 16), '=', '=']
  | [b0, b1] =>
      [b64Char (b0 / 4), b64Char (b0 % 4 * 16 + b1 / 16), b64Char (b1 % 16 * 4), '=']
  | b0 :: b1 :: b2 :: rest =>
      b64Char (b0 / 4) :: b64Char (b0 % 4 * 16 + b1 / 16) ::
      b64Char (b1 % 16 * 4 + b2 / 64) :: b64Char (b2 % 64) :: b64EncodeGroups rest

/-- `base64::engine::general_purpose::STANDARD.encode`. -/
def base64Encode (bs : List Nat) : String := String.mk (b64EncodeGroups bs)

/-- Base64 decoding of 4-character groups; rejects foreign characters,
misplaced padding and non-canonical trailing bits, as the strict
`STANDARD` engine does. -/
def b64DecodeGroups : List Char → Option (List Nat)
  | [] => some []
  | c0 :: c1 :: c2 :: c3 :: rest => do
      let s0 ← b64Index c0
      let s1 ← b64Index c1
      if c2 = '=' then
        if c3 = '=' ∧ rest = [] ∧ s1 % 16 = 0 then
          some [s0 * 4 + s1 / 16]
        else none
      else do
        let s2 ← b64Index c2
        if c3 = '=' then
          if rest = [] ∧ s2 % 4 = 0 then
            some [s0 * 4 + s1 / 16, s1 % 16 * 16 + s2 / 4]
          else none
        else do
          let s3 ← b64Index c3
          let tail ← b64DecodeGroups rest
          some ((s0 * 4 + s1 / 16) :: (s1 % 16 * 16 + s2 / 4) :: (s2 % 4 * 64 + s3) :: tail)
  | _ => none

/-- `base64::engine::general_purpose::STANDARD.decode`. -/
def base64Decode (s : String) : Option (List Nat) := b64DecodeGroups s.toList

/-! ### AES-256 block cipher (the `aes` crate behind `Aes256Gcm`) -/

/-- The AES S-box. -/
def sbox : List Nat := [
  99, 124, 119, 123, 242, 107, 111, 197, 48, 1, 103, 43, 254, 215, 171, 118,
  202, 130, 201, 125, 250, 89, 71, 240, 173, 212, 162, 175, 156, 164, 114, 192,
  183, 253, 147, 38, 54, 63, 247, 204, 52, 165, 229, 241, 113, 216, 49, 21,
  4, 199, 35, 195, 24, 150, 5, 154, 7, 18, 128, 226, 235, 39, 178, 117,
  9, 131, 44, 26, 27, 110, 90, 160, 82, 59, 214, 179, 41, 227, 47, 132,
  83, 209, 0, 237, 32, 252, 177, 91, 106, 203, 190, 57, 74, 76, 88, 207,
  208, 239, 170, 251, 67, 77, 51, 133, 69, 249, 2, 127, 80, 60, 159, 168,
  81, 163, 64, 143, 146, 157, 56, 245, 188, 182, 218, 33, 16, 255, 243, 210,
  205, 12, 19, 236, 95, 151, 68, 23, 196, 167, 126, 61, 100, 93, 25, 115,
  96, 129, 79, 220, 34, 42, 144, 136, 70, 238, 184, 20, 222, 94, 11, 219,
  224, 50, 58, 10, 73, 6, 36, 92, 194, 211, 172, 98, 145, 149, 228, 121,
  231, 200, 55, 109, 141, 213, 78, 169, 108, 86, 244, 234, 101, 122, 174, 8,
  186, 120, 37, 46, 28, 166, 180, 198, 232, 221, 116, 31, 75, 189, 139, 138,
  112, 62, 181, 102, 72, 3, 246, 14, 97, 53, 87, 185, 134, 193, 29, 158,
  225, 248, 152, 17, 105, 217, 142, 148, 155, 30, 135, 233, 206, 85, 40, 223,
  140, 161, 137, 13, 191, 230, 66, 104, 65, 153, 45, 15, 176, 84, 187, 22]

/-- S-box lookup. -/
def sboxAt (b : Nat) : Nat := sbox.getD b 0

/-- Round constants for AES-256 key expansion (indexed `i / 8` for
`i = 8, …, 59`, so only entries 1–7 are used). -/
def rconV (j : Nat) : Nat := [0, 1, 2, 4, 8, 16, 32, 64].getD j 0

/-- SubWord step of the key schedule. -/
def subWord (w : List Nat) : List Nat := w.map sboxAt

/-- RotWord step of the key schedule. -/
def rotWord (w : List Nat) : List Nat := w.drop 1 ++ w.take 1

/-- AES-256 key schedule: the `i`-th 4-byte word, for `i < 60`. -/
def keyWord (key : List Nat) (i : Nat) : List Nat :=
  if h : i < 8 then (key.drop (4 * i)).take 4
  else
    let prev := keyWord key (i - 1)
    let temp :=
      if i % 8 = 0 then xorBytes (subWord (rotWord prev)) [rconV (i / 8), 0, 0, 0]
      else if i % 8 = 4 then subWord prev
      else prev
    xorBytes (keyWord key (i - 8)) temp
termination_by i
decreasing_by
  · omega
  · omega

/-- The 16-byte round key for round `r` (column-major state layout). -/
def roundKey (key : List Nat) (r : Nat) : List Nat :=
  (List.range 4).flatMap (fun j => keyWord key (4 * r + j))

/-- AddRoundKey. -/
def addRoundKey (st k : List Nat) : List Nat := xorBytes st k

/-- SubBytes. -/
def subBytes (st : List Nat) : List Nat := st.map sboxAt

/-- ShiftRows on the flat column-major 16-byte state. -/
def shiftRows (st : List Nat) : List Nat :=
  (List.range 16).map (fun i => st.getD (4 * ((i / 4 + i % 4) % 4) + i % 4) 0)

/-- Multiplication by x in GF(2^8). -/
def xtime (b : Nat) : Nat := b * 2 % 256 ^^^ (if 128 ≤ b then 27 else 0)

/-- Multiplication by 3 in GF(2^8). -/
def mul3 (b : Nat) : Nat := xtime b ^^^ b

/-- MixColumns on one 4-byte column. -/
def mixColumn : List Nat → List Nat
  | [a, b, c, d] =>
      [xtime a ^^^ mul3 b ^^^ c ^^^ d,
       a ^^^ xtime b ^^^ mul3 c ^^^ d,
       a ^^^ b ^^^ xtime c ^^^ mul3 d,
       mul3 a ^^^ b ^^^ c ^^^ xtime d]
  | other => other

/-- MixColumns on the full state. -/
def mixColumns (st : List Nat) : List Nat :=
  (List.range 4).flatMap (fun c => mixColumn ((st.drop (4 * c)).take 4))

/-- One middle round of AES. -/
def aesRound (key : List Nat) (r : Nat) (st : List Nat) : List Nat :=
  addRoundKey (mixColumns (shiftRows (subBytes st))) (roundKey key r)

/-- AES-256 encryption of one 16-byte block (14 rounds). -/
def aesBlock (key input : List Nat) : List Nat :=
  let st0 := addRoundKey input (roundKey key 0)
  let stN := (List.range 13).foldl (fun st r => aesRound key (r + 1) st) st0
  addRoundKey (shiftRows (subBytes stN)) (roundKey key 14)

/-! ### AES-GCM (the `aes-gcm` crate's `Aes256Gcm` with 12-byte nonces) -/

/-- The `i`-th CTR block: AES of nonce followed by the 32-bit counter. -/
def ctrBlock (key nonce : List Nat) (i : Nat) : List Nat :=
  aesBlock key (nonce ++ beBytes i 4)

/-- CTR keystream for a message of `len` bytes; GCM starts the message
counter at 2 (counter 1 is reserved for the tag mask). -/
def keystream (key nonce : List Nat) (len : Nat) : List Nat :=
  ((List.range ((len + 15) / 16)).flatMap (fun i => ctrBlock key nonce (i + 2))).take len

/-- A 16-byte block as a big-endian 128-bit number. -/
def natOfBytes (bs : List Nat) : Nat := bs.foldl (fun acc b => acc * 256 + b) 0

/-- The GHASH reduction constant R = 0xE1 followed by 15 zero bytes. -/
def gcmR : Nat := 0xe1000000000000000000000000000000

/-- GF(2^128) multiplication in the bit-reflected GCM representation. -/
def gfMul (x y : Nat) : Nat :=
  ((List.range 128).foldl
    (fun (zv : Nat × Nat) i =>
      (if x / 2 ^ (127 - i) % 2 = 1 then zv.1 ^^^ zv.2 else zv.1,
       if zv.2 % 2 = 1 then zv.2 / 2 ^^^ gcmR else zv.2 / 2))
    (0, y)).1

/-- Zero-pad a byte string to a multiple of 16 bytes. -/
def pad16 (l : List Nat) : List Nat :=
  l ++ List.replicate ((16 - l.length % 16) % 16) 0

/-- Split into 16-byte chunks. -/
def chunks16 (l : List Nat) : List (List Nat) :=
  if h : l.isEmpty then [] else l.take 16 :: chunks16 (l.drop 16)
termination_by l.length
decreasing_by
  have hne : l ≠ [] := by simpa [List.isEmpty_iff] using h
  have hpos : 0 < l.length := List.length_pos.mpr hne
  simp only [List.length_drop]
  omega

/-- GHASH of a byte string under hash key `h`. -/
def ghash (h : Nat) (data : List Nat) : Nat :=
  (chunks16 data).foldl (fun y blk => gfMul (y ^^^ natOfBytes blk) h) 0

/-- The 16-byte GCM authentication tag over ciphertext `ct` (no
associated data, as in the source). -/
def gcmTag (key nonce ct : List Nat) : List Nat :=
  let h := natOfBytes (aesBlock key (List.replicate 16 0))
  let lenBlock := beBytes 0 8 ++ beBytes (ct.length * 8) 8
  let s := ghash h (pad16 ct ++ lenBlock)
  xorBytes (beBytes s 16) (aesBlock key (nonce ++ beBytes 1 4))

/-! ### Cipher (storage.rs `impl Cipher`) -/

/-- Storage-layer error type (`StorageError`), restricted to the
variants the cipher can produce. -/
inductive StorageError where
  | Encryption : StorageError
  | Decryption : StorageError
  | Key (msg : String) : StorageError
deriving DecidableEq

/-- `Cipher::encrypt_bytes`: AES-256-GCM under a caller-supplied fresh
12-byte nonce (the source draws it from `OsRng`), output
`base64(nonce || ciphertext || tag)`. -/
def encrypt_bytes (key nonce data : List Nat) : String :=
  let ct := xorBytes data (keystream key nonce data.length)
  base64Encode (nonce ++ ct ++ gcmTag key nonce ct)

/-- The post-decode body of `Cipher::decrypt_bytes`: reject byte
strings shorter than the 12-byte nonce, split nonce and payload, have
the AEAD split the 16-byte tag off the payload's tail, verify it, and
XOR-decrypt; every failure is `StorageError::Decryption`. -/
def decryptCombined (key combined : List Nat) : Except StorageError (List Nat) :=
  if combined.length < 12 then .error .Decryption
  else if (combined.drop 12).length < 16 then .error .Decryption
  else if gcmTag key (combined.take 12)
      ((combined.drop 12).take ((combined.drop 12).length - 16)) =
      (combined.drop 12).drop ((combined.drop 12).length - 16) then
    .ok (xorBytes ((combined.drop 12).take ((combined.drop 12).length - 16))
      (keystream key (combined.take 12)
        ((combined.drop 12).take ((combined.drop 12).length - 16)).length))
  else .error .Decryption

/-- `Cipher::decrypt_bytes`: base64-decode, then split, verify and
decrypt as above. -/
def decrypt_bytes (key : List Nat) (s : String) : Except StorageError (List Nat) :=
  match base64Decode s with
  | none => .error .Decryption
  | some combined => decryptCombined key combined

/-- UTF-8 encoding of one character. -/
def utf8EncodeChar (c : Char) : List Nat :=
  let n := c.toNat
  if n < 128 then [n]
  else if n < 2048 then [192 + n / 64, 128 + n % 64]
  else if n < 65536 then [224 + n / 4096, 128 + n / 64 % 64, 128 + n % 64]
  else [240 + n / 262144, 128 + n / 4096 % 64, 128 + n / 64 % 64, 128 + n % 64]

/-- A Rust `&str` as its UTF-8 bytes (`str::as_bytes`). -/
def strBytes (s : String) : List Nat := s.toList.flatMap utf8EncodeChar

/-- `Cipher::encrypt_string`: encrypt the UTF-8 bytes. -/
def encrypt_string (key nonce : List Nat) (s : String) : String :=
  encrypt_bytes key nonce (strBytes s)

/-! ### Storage: the `messages` table and `Storage::upsert_messages` -/

/-- `storage::MessageInsert` (storage.rs). -/
structure MessageInsert where
  account_email : String
  uid : String
  sender_display : String
  sender_email : String
  subject : String
  date : Option String
  snippet : Option String
  body : Option (List Nat)
  flags : Option String
deriving DecidableEq

/-- One row of the `messages` table (the columns written by
`upsert_messages`; the implicit rowid is the list position). -/
structure MessageRow where
  account_email : String
  uid : String
  sender_email : String
  sender_display : String
  subject_encrypted : String
  date : Option String
  snippet_encrypted : Option String
  body_encrypted : Option String
  flags : Option String
  created_at : Int
  updated_at : Int
deriving DecidableEq

/-- The nonces drawn from `OsRng` while encrypting one row: one for the
subject, one for the optional snippet, one for the optional body. -/
structure NonceTriple where
  subjectNonce : List Nat
  snippetNonce : List Nat
  bodyNonce : List Nat
deriving DecidableEq

/-- The VALUES tuple built for one batch row: per-row encryption of
subject, snippet and body, sender lowercased, `created_at` and
`updated_at` both set to `now`. -/
def encryptInsert (key : List Nat) (row : MessageInsert) (ns : NonceTriple) (now : Int) :
    MessageRow :=
  { account_email := row.account_email
    uid := row.uid
    sender_email := String.map Char.toLower row.sender_email
    sender_display := row.sender_display
    subject_encrypted := encrypt_string key ns.subjectNonce row.subject
    date := row.date
    snippet_encrypted := row.snippet.map (encrypt_string key ns.snippetNonce)
    body_encrypted := row.body.map (encrypt_bytes key ns.bodyNonce)
    flags := row.flags
    created_at := now
    updated_at := now }

/-- The `(account_email, uid)` key of a table row. -/
def rowKey (m : MessageRow) : String × String := (m.account_email, m.uid)

/-- The `(account_email, uid)` key of a batch row. -/
def insKey (r : MessageInsert) : String × String := (r.account_email, r.uid)

/-- `INSERT … ON CONFLICT(account_email, uid) DO UPDATE`: an existing
row with the same key is rewritten in place with every mutable field and
`updated_at` taken from the excluded row while `created_at` is
preserved; otherwise the row is appended. -/
def upsertRow (t : List MessageRow) (r : MessageRow) : List MessageRow :=
  if t.any (fun old => rowKey old = rowKey r) then
    t.map (fun old => if rowKey old = rowKey r then { r with created_at := old.created_at } else old)
  else t ++ [r]

/-- `Storage::upsert_messages`: one transaction executing the upsert
statement per batch row in order, with per-row encryption; the nonce
triples consumed from the CSPRNG are passed explicitly. -/
def upsert_messages (key : List Nat) (t : List MessageRow) (rows : List MessageInsert)
    (nonces : List NonceTriple) (now : Int) : List MessageRow :=
  (rows.zip nonces).foldl (fun acc pr => upsertRow acc (encryptInsert key pr.1 pr.2 now)) t

/-- All columns of a message row except `updated_at` (the projection
under which the claim asserts the table is bit-identical after a second
identical upsert). -/
def rowNoUpdatedAt (m : MessageRow) :
    String × String × String × String × String × Option String × Option String ×
      Option String × Option String × Int :=
  (m.account_email, m.uid, m.sender_email, m.sender_display, m.subject_encrypted, m.date,
    m.snippet_encrypted, m.body_encrypted, m.flags, m.created_at)

/-- The columns that are deterministic functions of the batch row: all
columns except `updated_at` and the three nonce-dependent encrypted
columns. -/
def stripRow (m : MessageRow) :
    String × String × String × String × Option String × Option String × Int :=
  (m.account_email, m.uid, m.sender_email, m.sender_display, m.date, m.flags, m.created_at)

/-- The last batch entry carrying a given `(account_email, uid)` key —
the one whose values the SQL upsert leaves in the table. -/
def lastWith (k : String × String) (prs : List (MessageInsert × NonceTriple)) :
    Option (MessageInsert × NonceTriple) :=
  prs.reverse.find? (fun pr => decide (insKey pr.1 = k))

/-- The row the upsert fold leaves at the position of an existing row
`m`: untouched when no batch entry carries its key, otherwise the
encryption of the last such entry with `created_at` preserved. -/
def upsertExpected (key : List Nat) (now : Int) (prs : List (MessageInsert × NonceTriple))
    (m : MessageRow) : MessageRow :=
  match lastWith (rowKey m) prs with
  | none => m
  | some pr => { encryptInsert key pr.1 pr.2 now with created_at := m.created_at }

/-! ### Storage: `Storage::update_sync_state` -/

/-- One row of `account_sync_state`. -/
structure SyncStateRow where
  last_full_sync : Option Int
  last_incremental_sync : Option Int
  last_uid : Option String
  total_messages : Int
deriving DecidableEq

/-- SQL `COALESCE` of the excluded value with the stored one. -/
def coalesce {α : Type} (new old : Option α) : Option α :=
  match new with
  | some v => some v
  | none => old

/-- `Storage::update_sync_state` restricted to one account: INSERT of
the new values, ON CONFLICT coalescing `last_full_sync` and `last_uid`
with the stored row and always overwriting `last_incremental_sync` and
`total_messages`.  `last_full` is `now` only for a full sync. -/
def update_sync_state (existing : Option SyncStateRow) (lastUid : Option String)
    (isFull : Bool) (totalMessages : Int) (now : Int) : SyncStateRow :=
  let lastFull : Option Int := if isFull then some now else none
  match existing with
  | none =>
      { last_full_sync := lastFull
        last_incremental_sync := some now
        last_uid := lastUid
        total_messages := totalMessages }
  | some old =>
      { last_full_sync := coalesce lastFull old.last_full_sync
        last_incremental_sync := some now
        last_uid := coalesce lastUid old.last_uid
        total_messages := totalMessages }

/-! ### Providers: error type and the `fetch_recent` wrappers -/

/-- `providers::ProviderError`. -/
inductive ProviderError where
  | Authentication (msg : String) : ProviderError
  | Network (msg : String) : ProviderError
  | Imap (msg : String) : ProviderError
  | Other (msg : String) : ProviderError
deriving DecidableEq

/-- `models::MailAddress`. -/
structure MailAddress where
  display_name : Option String
  email : String
deriving DecidableEq

/-- `models::EmailSummary`. -/
structure EmailSummary where
  uid : String
  subject : String
  sender : MailAddress
  date : Option String
deriving DecidableEq

/-- `providers::imap::fetch_recent`: clamps the limit to 200 and
delegates to the blocking session body (abstracted as `blocking`, since
it performs network I/O). -/
def imapFetchRecent (blocking : Nat → Except ProviderError (List EmailSummary))
    (limit : Nat) : Except ProviderError (List EmailSummary) :=
  blocking (min limit 200)

/-- `providers::fetch_recent` (providers/mod.rs): rejects a zero limit
before any session is opened, otherwise delegates to the imap layer. -/
def providersFetchRecent (blocking : Nat → Except ProviderError (List EmailSummary))
    (limit : Nat) : Except ProviderError (List EmailSummary) :=
  if limit = 0 then .error (.Other "limit must be greater than zero")
  else imapFetchRecent blocking limit

/-! ### Providers: `fetch_recent_blocking` sequence range -/

/-- The sequence-number range `start_seq:end_seq` that
`fetch_recent_blocking` fetches UIDs for, given the mailbox EXISTS
count and the (already clamped) limit:
`exists.saturating_sub(limit).max(1)` up to `exists`. -/
def fetchRecentSeqRange (exists_ limit : Nat) : Nat × Nat :=
  (max (exists_ - limit) 1, exists_)

/-! ### Providers: windowed UID enumeration (`collect_uids_for_window`) -/

/-- Yahoo-safe cap on UID SEARCH result size. -/
def MAX_UIDS_PER_SEARCH : Nat := 900

/-- The recursive date-window walk of `collect_uids_for_window` for a
window with an explicit `before` bound.  Dates are day numbers, so the
`chrono` span `end.signed_duration_since(start).num_days()` is
`e - start`.  A search (abstracted as `search`) returning at least 900
UIDs on a span of more than one day is split at
`start + max (span / 2) 1`; otherwise its result is accepted. -/
def collectWindow (search : Int → Int → List Nat) (start e : Int) : List Nat :=
  if start ≥ e then []
  else
    let uids := search start e
    if h : MAX_UIDS_PER_SEARCH ≤ uids.length ∧ 1 < e - start then
      let half := (e - start) / 2
      let midpoint := start + max half 1
      if h2 : start < midpoint ∧ midpoint < e then
        collectWindow search start midpoint ++ collectWindow search midpoint e
      else uids
    else uids
termination_by (e - start).toNat
decreasing_by
  · omega
  · omega

/-- Rust `Vec::dedup`: remove consecutive duplicates. -/
def dedupConsec : List Nat → List Nat
  | [] => []
  | [a] => [a]
  | a :: b :: rest => if a = b then dedupConsec (b :: rest) else a :: dedupConsec (b :: rest)

/-- `collect_uids_for_window`: walk the window when a `before` bound is
given (otherwise a single SINCE search, abstracted as `searchSince`),
then `sort_unstable` and `dedup` the collected UIDs. -/
def collect_uids_for_window (search : Int → Int → List Nat) (searchSince : Int → List Nat)
    (since : Int) (before : Option Int) : List Nat :=
  let collected :=
    match before with
    | some b => collectWindow search since b
    | none => searchSince since
  dedupConsec (collected.mergeSort (fun a b => decide (a ≤ b)))

/-! ### Providers: `extract_body_snippet` -/

/-- Rust `char::is_whitespace` (the Unicode White_Space property). -/
def rustIsWhitespace (c : Char) : Bool :=
  c = ' ' ∨ c = '\t' ∨ c = '\n' ∨ c.toNat = 11 ∨ c.toNat = 12 ∨ c = '\r' ∨
  c.toNat = 133 ∨ c.toNat = 160 ∨ c.toNat = 5760 ∨
  (8192 ≤ c.toNat ∧ c.toNat ≤ 8202) ∨ c.toNat = 8232 ∨ c.toNat = 8233 ∨
  c.toNat = 8239 ∨ c.toNat = 8287 ∨ c.toNat = 12288

/-- Rust `str::trim` on a character list. -/
def trimChars (s : List Char) : List Char :=
  ((s.dropWhile rustIsWhitespace).reverse.dropWhile rustIsWhitespace).reverse

/-- Helper for `split_whitespace`: accumulate the current token
(reversed) while scanning. -/
def splitWsAux : List Char → List Char → List (List Char)
  | [], acc => if acc.isEmpty then [] else [acc.reverse]
  | c :: rest, acc =>
      if rustIsWhitespace c then
        if acc.isEmpty then splitWsAux rest [] else acc.reverse :: splitWsAux rest []
      else splitWsAux rest (c :: acc)

/-- Rust `str::split_whitespace` (empty tokens are skipped). -/
def splitWs (s : List Char) : List (List Char) := splitWsAux s []

/-- `replace(['\r', '\n'], " ")`. -/
def collapseCrLf (s : List Char) : List Char :=
  s.map (fun c => if c = '\r' ∨ c = '\n' then ' ' else c)

/-- Join tokens with single spaces (`Vec::join(" ")`). -/
def joinSpace (ts : List (List Char)) : List Char := (ts.intersperse [' ']).flatten

/-- UTF-8 length of one character (Rust `char::len_utf8`). -/
def utf8Len (c : Char) : Nat :=
  if c.toNat < 128 then 1
  else if c.toNat < 2048 then 2
  else if c.toNat < 65536 then 3
  else 4

/-- Rust `str::len`: length in bytes. -/
def byteLen (s : List Char) : Nat := (s.map utf8Len).sum

/-- The characters lying entirely within the first `n` bytes; this is
the byte slice `&s[..n]` whenever byte `n` is a character boundary (the
source would panic otherwise). -/
def bytePrefix (s : List Char) (n : Nat) : List Char :=
  match s with
  | [] => []
  | c :: rest => if utf8Len c ≤ n then c :: bytePrefix rest (n - utf8Len c) else []

/-- `extract_body_snippet` (providers/imap.rs): collapse CR/LF to
spaces, keep the first 80 whitespace-separated tokens joined by single
spaces, trim, truncate to the first 280 *bytes* with a trailing `…`
when the byte length exceeds 280, and drop empty results. -/
def extract_body_snippet (raw : List Char) : Option (List Char) :=
  let collapsed := joinSpace ((splitWs (collapseCrLf raw)).take 80)
  let trimmed := trimChars collapsed
  let result := if 280 < byteLen trimmed then bytePrefix trimmed 280 ++ ['…'] else trimmed
  if result.isEmpty then none else some result

/-- The snippet transformation exactly as the claim words it: collapse
CR and LF to spaces, first 80 whitespace-separated tokens joined by
single spaces, truncated to 280 *characters* with a trailing `…` when
longer than 280 characters; an empty result yields no snippet. -/
def snippetSpecChars (raw : List Char) : Option (List Char) :=
  let collapsed := joinSpace ((splitWs (collapseCrLf raw)).take 80)
  let result := if 280 < collapsed.length then collapsed.take 280 ++ ['…'] else collapsed
  if result.isEmpty then none else some result

/-! ### Remote delete: backoff, error classification, worker updates -/

/-- `BACKOFF_BASE_SECS`. -/
def BACKOFF_BASE_SECS : Nat := 1

/-- `BACKOFF_MAX_SECS`. -/
def BACKOFF_MAX_SECS : Nat := 120

/-- `compute_backoff` (remote_delete.rs), in whole seconds:
`min(BASE * 2^min(n,6), MAX)`. -/
def compute_backoff (consecutiveFailures : Nat) : Nat :=
  let exponent := min consecutiveFailures 6
  let multiplier := 2 ^ exponent
  min (BACKOFF_BASE_SECS * multiplier) BACKOFF_MAX_SECS

/-- Case-insensitive substring test on Rust strings (lowercase the
haystack, then `str::contains`). -/
def containsLowered (message pattern : String) : Bool :=
  decide (pattern.toList <:+: message.toList.map Char.toLower)

/-- `is_rate_limit_error`: keyword match on Imap/Network/Other
messages. -/
def is_rate_limit_error : ProviderError → Bool
  | .Imap m | .Network m | .Other m =>
      containsLowered m "rate" || containsLowered m "too many" ||
      containsLowered m "temporarily" || containsLowered m "unavailable" ||
      containsLowered m "try again later"
  | .Authentication _ => false

/-- `should_retry_remote_error`: a missing error or any error that does
not read as permanent is retried. -/
def should_retry_remote_error (remoteError : Option String) : Bool :=
  match remoteError with
  | none => true
  | some message =>
      !(containsLowered message "no such message" || containsLowered message "not found" ||
        containsLowered message "already expunged" || containsLowered message "invalid uid")

/-- `provider_error_to_message`. -/
def provider_error_to_message : ProviderError → String
  | .Authentication message => message
  | .Network message => "Network error: " ++ message
  | .Imap message => "IMAP error: " ++ message
  | .Other message => message

/-- One `mark_deleted_remote` call (and the matching
`RemoteDeleteUpdate` event entry): a UID with an optional success
timestamp and an optional error message. -/
structure MarkCall where
  uid : String
  remote_deleted_at : Option Int
  remote_error : Option String
deriving DecidableEq

/-- The `mark_deleted_remote` calls one pass of `run_account_worker`
issues for a collected batch: on batch success every UID is marked with
a success timestamp; on a rate-limited failure under `ForceBatch` the
batch is requeued and nothing is marked; otherwise the per-UID fallback
marks each UID with either a success timestamp or the single-delete
error message.  `tsOf` gives the `Utc::now` timestamp observed when a
given UID is marked, `singleResult u = none` means the per-UID delete
succeeded. -/
def workerMarkCalls (uids : List String) (batchResult : Option ProviderError)
    (forceBatch : Bool) (singleResult : String → Option ProviderError)
    (tsOf : String → Int) : List MarkCall :=
  match batchResult with
  | none => uids.map (fun u => ⟨u, some (tsOf u), none⟩)
  | some err =>
      if is_rate_limit_error err && forceBatch then []
      else
        uids.map (fun u =>
          match singleResult u with
          | none => ⟨u, some (tsOf u), none⟩
          | some e => ⟨u, none, some (provider_error_to_message e)⟩)

/-- The clearing call `mark_deleted_remote(account, uid, None, None)`
issued by `resume_account` and the reconciler before re-enqueuing. -/
def reconcilerClearCall (uid : String) : MarkCall := ⟨uid, none, none⟩

/-- Modelled from the spec: `Storage::mark_deleted_remote` is absent
from src/ (only its callers in remote_delete.rs are present); per §4.2,
`mark_deleted_remote(email, uid, ok_ts?, error?)` writes the given
success timestamp and error message into the message row's
`remote_deleted_at` and `remote_error` columns. -/
structure RemoteDeleteCols where
  remote_deleted_at : Option Int
  remote_error : Option String
deriving DecidableEq

/-- Modelled from the spec: applying one `mark_deleted_remote` call to
the row's remote-delete columns. -/
def mark_deleted_remote (_row : RemoteDeleteCols) (okTs : Option Int)
    (err : Option String) : RemoteDeleteCols :=
  { remote_deleted_at := okTs, remote_error := err }

/-! ### main.rs: `sanitize_tags` -/

/-- Rust `char::to_ascii_lowercase`. -/
def toAsciiLower (c : Char) : Char :=
  if 'A' ≤ c ∧ c ≤ 'Z' then Char.ofNat (c.toNat + 32) else c

/-- Rust `str::eq_ignore_ascii_case`. -/
def eqIgnoreAsciiCase (a b : List Char) : Bool :=
  decide (a.map toAsciiLower = b.map toAsciiLower)

/-- `sanitize_tags` (main.rs): keep each allowed tag, in allowed-list
order, exactly when some raw tag trims to it up to ASCII case. -/
def sanitize_tags (rawTags allowedTags : List (List Char)) : List (List Char) :=
  allowedTags.filter (fun allowed =>
    rawTags.any (fun candidate => eqIgnoreAsciiCase (trimChars candidate) allowed))

/-! ## Theorems -/

/-! ### Base64 round trip -/

/-- Decoding inverts the alphabet lookup on 6-bit values. -/
theorem b64Index_b64Char (s : Nat) (h : s < 64) : b64Index (b64Char s) = some s := by
  have hall : ∀ t : Fin 64, b64Index (b64Char t.val) = some t.val := by decide
  exact hall ⟨s, h⟩

/-- Alphabet characters are never the padding character. -/
theorem b64Char_ne_pad (s : Nat) (h : s < 64) : b64Char s ≠ '=' := by
  have hall : ∀ t : Fin 64, b64Char t.val ≠ '=' := by decide
  exact hall ⟨s, h⟩

/-- Group-level base64 decoding inverts encoding on byte input. -/
theorem b64_groups_roundtrip : ∀ (bs : List Nat), (∀ b ∈ bs, b < 256) →
    b64DecodeGroups (b64EncodeGroups bs) = some bs
  | [] => by intro _; rfl
  | [b0] => by
      intro h
      have hb0 : b0 < 256 := h b0 (by simp)
      rw [b64EncodeGroups, b64DecodeGroups]
      rw [b64Index_b64Char (b0 / 4) (by omega), b64Index_b64Char (b0 % 4 * 16) (by omega)]
      simp only [Option.bind_eq_bind, Option.some_bind]
      rw [if_pos trivial]
      rw [if_pos (show True ∧ True ∧ b0 % 4 * 16 % 16 = 0 from ⟨trivial, trivial, by omega⟩)]
      have : b0 / 4 * 4 + b0 % 4 * 16 / 16 = b0 := by omega
      rw [this]
  | [b0, b1] => by
      intro h
      have hb0 : b0 < 256 := h b0 (by simp)
      have hb1 : b1 < 256 := h b1 (by simp)
      rw [b64EncodeGroups, b64DecodeGroups]
      rw [b64Index_b64Char (b0 / 4) (by omega),
        b64Index_b64Char (b0 % 4 * 16 + b1 / 16) (by omega)]
      simp only [Option.bind_eq_bind, Option.some_bind]
      rw [if_neg (b64Char_ne_pad (b1 % 16 * 4) (by omega))]
      rw [b64Index_b64Char (b1 % 16 * 4) (by omega)]
      simp only [Option.some_bind]
      rw [if_pos trivial]
      rw [if_pos (show True ∧ b1 % 16 * 4 % 4 = 0 from ⟨trivial, by omega⟩)]
      have e0 : b0 / 4 * 4 + (b0 % 4 * 16 + b1 / 16) / 16 = b0 := by omega
      have e1 : (b0 % 4 * 16 + b1 / 16) % 16 * 16 + b1 % 16 * 4 / 4 = b1 := by omega
      rw [e0, e1]
  | b0 :: b1 :: b2 :: rest => by
      intro h
      have hb0 : b0 < 256 := h b0 (by simp)
      have hb1 : b1 < 256 := h b1 (by simp)
      have hb2 : b2 < 256 := h b2 (by simp)
      have hrest := b64_groups_roundtrip rest
        (fun b hb => h b (by simp [List.mem_cons]; tauto))
      rw [b64EncodeGroups, b64DecodeGroups]
      rw [b64Index_b64Char (b0 / 4) (by omega),
        b64Index_b64Char (b0 % 4 * 16 + b1 / 16) (by omega)]
      simp only [Option.bind_eq_bind, Option.some_bind]
      rw [if_neg (b64Char_ne_pad (b1 % 16 * 4 + b2 / 64) (by omega))]
      rw [b64Index_b64Char (b1 % 16 * 4 + b2 / 64) (by omega)]
      simp only [Option.some_bind]
      rw [if_neg (b64Char_ne_pad (b2 % 64) (by omega))]
      rw [b64Index_b64Char (b2 % 64) (by omega)]
      simp only [Option.some_bind]
      rw [hrest]
      simp only [Option.some_bind]
      have e0 : b0 / 4 * 4 + (b0 % 4 * 16 + b1 / 16) / 16 = b0 := by omega
      have e1 : (b0 % 4 * 16 + b1 / 16) % 16 * 16 + (b1 % 16 * 4 + b2 / 64) / 4 = b1 := by
        omega
      have e2 : (b1 % 16 * 4 + b2 / 64) % 4 * 64 + b2 % 64 = b2 := by omega
      rw [e0, e1, e2]

/-- `STANDARD.decode` inverts `STANDARD.encode` on byte input. -/
theorem base64_roundtrip (bs : List Nat) (h : ∀ b ∈ bs, b < 256) :
    base64Decode (base64Encode bs) = some bs := by
  unfold base64Decode base64Encode
  have : (String.mk (b64EncodeGroups bs)).toList = b64EncodeGroups bs := rfl
  rw [this]
  exact b64_groups_roundtrip bs h

/-! ### AES-GCM support lemmas -/

/-- XOR of bytes below 256 stays below 256. -/
theorem mem_xorBytes_lt : ∀ (a b : List Nat), (∀ x ∈ a, x < 256) → (∀ x ∈ b, x < 256) →
    ∀ x ∈ xorBytes a b, x < 256
  | [], b => by simp [xorBytes]
  | a :: as, [] => by simp [xorBytes]
  | a :: as, b :: bs => by
      intro ha hb x hx
      rw [xorBytes, List.zipWith_cons_cons] at hx
      rcases List.mem_cons.mp hx with rfl | hx
      · have h1 : a < 2 ^ 8 := by have := ha a (by simp); omega
        have h2 : b < 2 ^ 8 := by have := hb b (by simp); omega
        have := Nat.xor_lt_two_pow h1 h2
        omega
      · exact mem_xorBytes_lt as bs (fun y hy => ha y (List.mem_cons_of_mem _ hy))
          (fun y hy => hb y (List.mem_cons_of_mem _ hy)) x hx

/-- `getD` with a bounded default on a bounded list is bounded. -/
theorem getD_lt_256 (l : List Nat) (i : Nat) (hl : ∀ x ∈ l, x < 256) : l.getD i 0 < 256 := by
  rcases h : l[i]? with _ | x
  · simp [List.getD_eq_getElem?_getD, h]
  · rw [List.getD_eq_getElem?_getD, h, Option.getD_some]
    exact hl x (List.getElem?_mem h)

/-- Every S-box entry is a byte. -/
theorem sboxAt_lt (b : Nat) : sboxAt b < 256 := by
  unfold sboxAt
  apply getD_lt_256
  decide

/-- Round constants are bytes. -/
theorem rconV_lt (j : Nat) : rconV j < 256 := by
  unfold rconV
  apply getD_lt_256
  decide

/-- Key-schedule words consist of bytes when the key does. -/
theorem keyWord_lt (key : List Nat) (hk : ∀ b ∈ key, b < 256) :
    ∀ i, ∀ b ∈ keyWord key i, b < 256 := by
  intro i
  induction i using Nat.strong_induction_on with
  | _ i ih =>
    rw [keyWord]
    by_cases h : i < 8
    · rw [dif_pos h]
      intro b hb
      exact hk b (List.mem_of_mem_drop (List.mem_of_mem_take hb))
    · rw [dif_neg h]
      intro b hb
      have hprev : ∀ b ∈ keyWord key (i - 1), b < 256 := ih (i - 1) (by omega)
      have hold : ∀ b ∈ keyWord key (i - 8), b < 256 := ih (i - 8) (by omega)
      have hsub : ∀ (w : List Nat), ∀ b ∈ subWord w, b < 256 := by
        intro w b hbw
        obtain ⟨c, _, rfl⟩ := List.mem_map.mp hbw
        exact sboxAt_lt c
      have htemp : ∀ b ∈ (if i % 8 = 0 then
          xorBytes (subWord (rotWord (keyWord key (i - 1)))) [rconV (i / 8), 0, 0, 0]
        else if i % 8 = 4 then subWord (keyWord key (i - 1))
        else keyWord key (i - 1)), b < 256 := by
        by_cases h0 : i % 8 = 0
        · rw [if_pos h0]
          refine mem_xorBytes_lt _ _ (hsub _) ?_
          intro x hx
          rcases List.mem_cons.mp hx with rfl | hx
          · exact rconV_lt _
          · simp at hx
            rcases hx with rfl | rfl | rfl <;> omega
        · rw [if_neg h0]
          by_cases h4 : i % 8 = 4
          · rw [if_pos h4]; exact hsub _
          · rw [if_neg h4]; exact hprev
      exact mem_xorBytes_lt _ _ hold htemp b hb

/-- Round keys consist of bytes when the key does. -/
theorem roundKey_lt (key : List Nat) (hk : ∀ b ∈ key, b < 256) (r : Nat) :
    ∀ b ∈ roundKey key r, b < 256 := by
  intro b hb
  unfold roundKey at hb
  obtain ⟨j, _, hbj⟩ := List.mem_flatMap.mp hb
  exact keyWord_lt key hk _ b hbj

/-- AES block output consists of bytes when the key does. -/
theorem aesBlock_lt (key input : List Nat) (hk : ∀ b ∈ key, b < 256) :
    ∀ b ∈ aesBlock key input, b < 256 := by
  intro b hb
  simp only [aesBlock] at hb
  refine mem_xorBytes_lt _ _ ?_ (roundKey_lt key hk 14) b hb
  intro x hx
  unfold shiftRows at hx
  obtain ⟨j, _, hxj⟩ := List.mem_map.mp hx
  subst hxj
  apply getD_lt_256
  intro y hy
  obtain ⟨c, _, rfl⟩ := List.mem_map.mp hy
  exact sboxAt_lt c

/-- Big-endian byte renderings consist of bytes. -/
theorem beBytes_lt (n len : Nat) : ∀ x ∈ beBytes n len, x < 256 := by
  intro x hx
  unfold beBytes at hx
  obtain ⟨j, _, rfl⟩ := List.mem_map.mp hx
  exact Nat.mod_lt _ (by norm_num)

/-- Keystream bytes are bytes when the key is. -/
theorem keystream_lt (key nonce : List Nat) (len : Nat) (hk : ∀ b ∈ key, b < 256) :
    ∀ x ∈ keystream key nonce len, x < 256 := by
  intro x hx
  unfold keystream at hx
  have hx' := List.mem_of_mem_take hx
  obtain ⟨i, _, hxi⟩ := List.mem_flatMap.mp hx'
  exact aesBlock_lt key _ hk x hxi

/-- GCM tags consist of bytes when the key does. -/
theorem gcmTag_lt (key nonce ct : List Nat) (hk : ∀ b ∈ key, b < 256) :
    ∀ x ∈ gcmTag key nonce ct, x < 256 := by
  intro x hx
  simp only [gcmTag] at hx
  exact mem_xorBytes_lt _ _ (beBytes_lt _ _) (aesBlock_lt key _ hk) x hx

/-- Length of a byte XOR. -/
theorem xorBytes_length (a b : List Nat) : (xorBytes a b).length = min a.length b.length :=
  List.length_zipWith _ a b

/-- Key-schedule words are 4 bytes long for a 32-byte key. -/
theorem keyWord_length (key : List Nat) (hk : key.length = 32) :
    ∀ i, (keyWord key i).length = 4 := by
  intro i
  induction i using Nat.strong_induction_on with
  | _ i ih =>
    rw [keyWord]
    by_cases h : i < 8
    · rw [dif_pos h]
      simp only [List.length_take, List.length_drop, hk]
      omega
    · rw [dif_neg h]
      have hprev : (keyWord key (i - 1)).length = 4 := ih (i - 1) (by omega)
      have hold : (keyWord key (i - 8)).length = 4 := ih (i - 8) (by omega)
      rw [xorBytes_length, hold]
      have htemp : (if i % 8 = 0 then
          xorBytes (subWord (rotWord (keyWord key (i - 1)))) [rconV (i / 8), 0, 0, 0]
        else if i % 8 = 4 then subWord (keyWord key (i - 1))
        else keyWord key (i - 1)).length = 4 := by
        by_cases h0 : i % 8 = 0
        · rw [if_pos h0, xorBytes_length]
          simp only [subWord, rotWord, List.length_map, List.length_append,
            List.length_drop, List.length_take, hprev]
          rfl
        · rw [if_neg h0]
          by_cases h4 : i % 8 = 4
          · rw [if_pos h4]; simp [subWord, hprev]
          · rw [if_neg h4]; exact hprev
      rw [htemp]
      omega

/-- Round keys are 16 bytes long for a 32-byte key. -/
theorem roundKey_length (key : List Nat) (hk : key.length = 32) (r : Nat) :
    (roundKey key r).length = 16 := by
  unfold roundKey
  have h4 : List.range 4 = [0, 1, 2, 3] := rfl
  rw [h4]
  simp [List.flatMap_cons, keyWord_length key hk]

/-- ShiftRows always yields 16 bytes. -/
theorem shiftRows_length (st : List Nat) : (shiftRows st).length = 16 := by
  simp [shiftRows]

/-- MixColumns of a 4-byte column is 4 bytes. -/
theorem mixColumn_length (l : List Nat) (h : l.length = 4) : (mixColumn l).length = 4 := by
  match l, h with
  | [a, b, c, d], _ => rfl

/-- MixColumns preserves the 16-byte state. -/
theorem mixColumns_length (st : List Nat) (h : st.length = 16) :
    (mixColumns st).length = 16 := by
  unfold mixColumns
  have h4 : List.range 4 = [0, 1, 2, 3] := rfl
  rw [h4]
  simp only [List.flatMap_cons, List.flatMap_nil, List.append_nil, List.length_append]
  have hc : ∀ c : Nat, c < 4 → ((st.drop (4 * c)).take 4).length = 4 := by
    intro c hc
    simp only [List.length_take, List.length_drop, h]
    omega
  rw [mixColumn_length _ (hc 0 (by norm_num)), mixColumn_length _ (hc 1 (by norm_num)),
    mixColumn_length _ (hc 2 (by norm_num)), mixColumn_length _ (hc 3 (by norm_num))]

/-- One AES round preserves the 16-byte state. -/
theorem aesRound_length (key : List Nat) (hk : key.length = 32) (r : Nat) (st : List Nat)
    (h : st.length = 16) : (aesRound key r st).length = 16 := by
  unfold aesRound addRoundKey
  rw [xorBytes_length, roundKey_length key hk]
  rw [mixColumns_length _ (by rw [shiftRows_length])]
  omega

/-- AES block output is 16 bytes for a 32-byte key and 16-byte input. -/
theorem aesBlock_length (key input : List Nat) (hk : key.length = 32)
    (hi : input.length = 16) : (aesBlock key input).length = 16 := by
  simp only [aesBlock]
  unfold addRoundKey
  rw [xorBytes_length, roundKey_length key hk, shiftRows_length]
  omega

/-- Keystream length equals the requested message length. -/
theorem keystream_length (key nonce : List Nat) (len : Nat) (hk : key.length = 32)
    (hn : nonce.length = 12) : (keystream key nonce len).length = len := by
  unfold keystream
  rw [List.length_take]
  have hblock : ∀ i : Nat, (ctrBlock key nonce (i + 2)).length = 16 := by
    intro i
    unfold ctrBlock
    apply aesBlock_length key _ hk
    simp [beBytes, hn]
  have hflat : ∀ n : Nat,
      ((List.range n).flatMap (fun i => ctrBlock key nonce (i + 2))).length = 16 * n := by
    intro n
    induction n with
    | zero => simp
    | succ m ihm =>
        rw [List.range_succ, List.flatMap_append, List.length_append, ihm]
        simp [hblock m]
        omega
  rw [hflat]
  omega

/-- GCM tags are 16 bytes long. -/
theorem gcmTag_length (key nonce ct : List Nat) (hk : key.length = 32)
    (hn : nonce.length = 12) : (gcmTag key nonce ct).length = 16 := by
  simp only [gcmTag]
  rw [xorBytes_length]
  rw [aesBlock_length key _ hk (by simp [beBytes, hn])]
  simp [beBytes]

/-- XORing with the same keystream twice restores the plaintext. -/
theorem xorBytes_cancel : ∀ (a b : List Nat), a.length ≤ b.length →
    xorBytes (xorBytes a b) b = a
  | [], b => by intro _; simp [xorBytes]
  | a :: as, [] => by intro h; simp at h
  | a :: as, b :: bs => by
      intro h
      simp only [xorBytes, List.zipWith_cons_cons]
      have hx : a ^^^ b ^^^ b = a := by
        rw [Nat.xor_assoc, Nat.xor_self, Nat.xor_zero]
      have ht := xorBytes_cancel as bs (by simpa using h)
      unfold xorBytes at ht
      rw [hx, ht]

/-! ### C1: Cipher round trip -/

/-- Claim C1: for every 32-byte key, fresh 12-byte nonce and plaintext,
`decrypt_bytes` inverts `encrypt_bytes` exactly — the stored
`base64(nonce || AES-256-GCM ciphertext || tag)` decodes, splits, passes
tag verification and XOR-decrypts back to the original bytes, so
subject, snippet and body round-trip byte-for-byte. -/
theorem C1_cipher_roundtrip (key nonce data : List Nat)
    (hklen : key.length = 32) (hkb : ∀ b ∈ key, b < 256)
    (hnlen : nonce.length = 12) (hnb : ∀ b ∈ nonce, b < 256)
    (hdb : ∀ b ∈ data, b < 256) :
    decrypt_bytes key (encrypt_bytes key nonce data) = .ok data := by
  have hksb := keystream_lt key nonce data.length hkb
  have hkslen := keystream_length key nonce data.length hklen hnlen
  have hctb : ∀ x ∈ xorBytes data (keystream key nonce data.length), x < 256 :=
    mem_xorBytes_lt _ _ hdb hksb
  have hctlen : (xorBytes data (keystream key nonce data.length)).length = data.length := by
    rw [xorBytes_length, hkslen]
    omega
  have htagb := gcmTag_lt key nonce (xorBytes data (keystream key nonce data.length)) hkb
  have htaglen := gcmTag_length key nonce (xorBytes data (keystream key nonce data.length))
    hklen hnlen
  have hcomb : ∀ x ∈ nonce ++ xorBytes data (keystream key nonce data.length) ++
      gcmTag key nonce (xorBytes data (keystream key nonce data.length)), x < 256 := by
    intro x hx
    rcases List.mem_append.mp hx with hx | hx
    · rcases List.mem_append.mp hx with hx | hx
      · exact hnb x hx
      · exact hctb x hx
    · exact htagb x hx
  have hstep : decrypt_bytes key (encrypt_bytes key nonce data) =
      decryptCombined key (nonce ++ xorBytes data (keystream key nonce data.length) ++
        gcmTag key nonce (xorBytes data (keystream key nonce data.length))) := by
    simp only [encrypt_bytes]
    rw [decrypt_bytes, base64_roundtrip _ hcomb]
  rw [hstep, decryptCombined, List.append_assoc]
  have htake : (nonce ++ (xorBytes data (keystream key nonce data.length) ++
      gcmTag key nonce (xorBytes data (keystream key nonce data.length)))).take 12 = nonce := by
    rw [← hnlen]
    exact List.take_left _ _
  have hdrop : (nonce ++ (xorBytes data (keystream key nonce data.length) ++
      gcmTag key nonce (xorBytes data (keystream key nonce data.length)))).drop 12 =
      xorBytes data (keystream key nonce data.length) ++
      gcmTag key nonce (xorBytes data (keystream key nonce data.length)) := by
    rw [← hnlen]
    exact List.drop_left _ _
  rw [htake, hdrop]
  have hlen : (nonce ++ (xorBytes data (keystream key nonce data.length) ++
      gcmTag key nonce (xorBytes data (keystream key nonce data.length)))).length =
      12 + (data.length + 16) := by
    simp only [List.length_append, hnlen, hctlen, htaglen]
  rw [hlen]
  have hplen : (xorBytes data (keystream key nonce data.length) ++
      gcmTag key nonce (xorBytes data (keystream key nonce data.length))).length =
      data.length + 16 := by
    simp only [List.length_append, hctlen, htaglen]
  rw [hplen]
  rw [if_neg (by omega), if_neg (by omega)]
  have hsub : data.length + 16 - 16 = (xorBytes data (keystream key nonce data.length)).length := by
    omega
  rw [hsub]
  rw [List.take_left, List.drop_left]
  rw [if_pos rfl]
  rw [hctlen]
  rw [xorBytes_cancel data _ (by omega)]

/-- Witness for C1 at a concrete key, nonce and plaintext. -/
theorem C1_cipher_roundtrip_witness :
    decrypt_bytes (List.replicate 32 7)
      (encrypt_bytes (List.replicate 32 7) (List.replicate 12 3) [104, 105]) =
      .ok [104, 105] :=
  C1_cipher_roundtrip (List.replicate 32 7) (List.replicate 12 3) [104, 105]
    (by decide) (by decide) (by decide) (by decide) (by decide)

/-! ### C2 support: characterizing the upsert fold -/

/-- Keys of encrypted batch rows. -/
theorem rowKey_encryptInsert (key : List Nat) (r : MessageInsert) (ns : NonceTriple)
    (now : Int) : rowKey (encryptInsert key r ns now) = insKey r := rfl

/-- Encrypted batch rows carry `created_at = now`. -/
theorem created_encryptInsert (key : List Nat) (r : MessageInsert) (ns : NonceTriple)
    (now : Int) : (encryptInsert key r ns now).created_at = now := rfl

/-- Encrypted batch rows carry `updated_at = now`. -/
theorem updated_encryptInsert (key : List Nat) (r : MessageInsert) (ns : NonceTriple)
    (now : Int) : (encryptInsert key r ns now).updated_at = now := rfl

/-- Re-imposing `created_at = now` on a fresh encrypted row is the
identity. -/
theorem encryptInsert_eta (key : List Nat) (r : MessageInsert) (ns : NonceTriple)
    (now : Int) :
    { encryptInsert key r ns now with created_at := now } = encryptInsert key r ns now := rfl

/-- A hit in `lastWith` carries the searched key. -/
theorem lastWith_some_key (k : String × String) (prs : List (MessageInsert × NonceTriple))
    (pr : MessageInsert × NonceTriple) (h : lastWith k prs = some pr) : insKey pr.1 = k := by
  unfold lastWith at h
  have := List.find?_some h
  simpa using this

/-- A hit in `lastWith` is a member of the batch. -/
theorem lastWith_some_mem (k : String × String) (prs : List (MessageInsert × NonceTriple))
    (pr : MessageInsert × NonceTriple) (h : lastWith k prs = some pr) : pr ∈ prs := by
  unfold lastWith at h
  have := List.mem_of_find?_eq_some h
  simpa using this

/-- Peeling the head of the batch off `lastWith`: later entries win. -/
theorem lastWith_cons (k : String × String) (pr0 : MessageInsert × NonceTriple)
    (prs : List (MessageInsert × NonceTriple)) :
    lastWith k (pr0 :: prs) =
      match lastWith k prs with
      | some q => some q
      | none => if insKey pr0.1 = k then some pr0 else none := by
  unfold lastWith
  rw [List.reverse_cons, List.find?_append]
  cases h : (prs.reverse.find? (fun pr => decide (insKey pr.1 = k))) with
  | some q => simp [h]
  | none =>
      simp only [h, Option.none_or]
      by_cases hk : insKey pr0.1 = k
      · simp [List.find?, hk]
      · simp [List.find?, hk]

/-- `upsertExpected` preserves the row key. -/
theorem rowKey_upsertExpected (key : List Nat) (now : Int)
    (prs : List (MessageInsert × NonceTriple)) (m : MessageRow) :
    rowKey (upsertExpected key now prs m) = rowKey m := by
  unfold upsertExpected
  cases h : lastWith (rowKey m) prs with
  | none => rfl
  | some pr =>
      have hk := lastWith_some_key _ _ _ h
      simp only []
      show (pr.1.account_email, pr.1.uid) = rowKey m
      exact hk

/-- `upsertExpected` preserves `created_at`. -/
theorem created_upsertExpected (key : List Nat) (now : Int)
    (prs : List (MessageInsert × NonceTriple)) (m : MessageRow) :
    (upsertExpected key now prs m).created_at = m.created_at := by
  unfold upsertExpected
  cases h : lastWith (rowKey m) prs with
  | none => rfl
  | some pr => rfl

/-- An empty batch leaves any row as it is. -/
theorem upsertExpected_nil (key : List Nat) (now : Int) (m : MessageRow) :
    upsertExpected key now [] m = m := rfl

/-- The two branches of the SQL upsert: append when the key is new,
in-place rewrite of matching rows otherwise. -/
theorem upsertRow_cases (t : List MessageRow) (r : MessageRow) :
    (¬(∃ old ∈ t, rowKey old = rowKey r) ∧ upsertRow t r = t ++ [r]) ∨
    ((∃ old ∈ t, rowKey old = rowKey r) ∧
      upsertRow t r = t.map (fun old =>
        if rowKey old = rowKey r then { r with created_at := old.created_at } else old)) := by
  unfold upsertRow
  by_cases h : ∃ old ∈ t, rowKey old = rowKey r
  · right
    refine ⟨h, ?_⟩
    rw [if_pos (by simpa [List.any_eq_true] using h)]
  · left
    refine ⟨h, ?_⟩
    rw [if_neg (by simpa [List.any_eq_true] using h)]

/-- Peeling the first batch entry off `upsertExpected`. -/
theorem upsertExpected_cons (key : List Nat) (now : Int)
    (pr0 : MessageInsert × NonceTriple) (prs : List (MessageInsert × NonceTriple))
    (m : MessageRow) :
    upsertExpected key now (pr0 :: prs) m =
      upsertExpected key now prs
        (if rowKey m = insKey pr0.1 then
          { encryptInsert key pr0.1 pr0.2 now with created_at := m.created_at } else m) := by
  by_cases hk : rowKey m = insKey pr0.1
  · rw [if_pos hk]
    unfold upsertExpected
    have hkey : rowKey { encryptInsert key pr0.1 pr0.2 now with
        created_at := m.created_at } = insKey pr0.1 := rfl
    rw [hkey, lastWith_cons, hk]
    cases h : lastWith (insKey pr0.1) prs with
    | some q => simp only []
    | none => simp
  · rw [if_neg hk]
    unfold upsertExpected
    rw [lastWith_cons]
    cases h : lastWith (rowKey m) prs with
    | some q => simp only []
    | none =>
        simp only []
        rw [if_neg (fun he => hk he.symm)]

/-- The in-place rewrite of the upsert preserves row keys. -/
theorem rowKey_upsertMap (r old : MessageRow) :
    rowKey (if rowKey old = rowKey r then { r with created_at := old.created_at } else old) =
      rowKey old := by
  by_cases h : rowKey old = rowKey r
  · rw [if_pos h]
    exact h.symm
  · rw [if_neg h]

/-- Characterization of the upsert fold: existing positions are
rewritten according to the last batch entry with their key (with
`created_at` preserved), every batch key ends up present, no row is
appended when every batch key is already present, and appended rows are
exactly the encryptions of last batch entries for new keys. -/
theorem upsert_fold_char (key : List Nat) (now : Int) :
    ∀ (prs : List (MessageInsert × NonceTriple)) (t : List MessageRow),
    (∀ (i : Nat) (m : MessageRow), t[i]? = some m →
      (prs.foldl (fun acc pr => upsertRow acc (encryptInsert key pr.1 pr.2 now)) t)[i]? =
        some (upsertExpected key now prs m)) ∧
    (∀ pr ∈ prs,
      ∃ m ∈ prs.foldl (fun acc pr => upsertRow acc (encryptInsert key pr.1 pr.2 now)) t,
        rowKey m = insKey pr.1) ∧
    ((∀ pr ∈ prs, ∃ m ∈ t, rowKey m = insKey pr.1) →
      (prs.foldl (fun acc pr => upsertRow acc (encryptInsert key pr.1 pr.2 now)) t).length =
        t.length) ∧
    (∀ (i : Nat) (m : MessageRow), t.length ≤ i →
      (prs.foldl (fun acc pr => upsertRow acc (encryptInsert key pr.1 pr.2 now)) t)[i]? =
        some m →
      ∃ pr ∈ prs, lastWith (rowKey m) prs = some pr ∧ m = encryptInsert key pr.1 pr.2 now)
  | [], t => by
      refine ⟨?_, ?_, ?_, ?_⟩
      · intro i m h
        rw [List.foldl_nil, upsertExpected_nil]
        exact h
      · simp
      · intro _
        rw [List.foldl_nil]
      · intro i m hge h
        rw [List.foldl_nil, List.getElem?_eq_none hge] at h
        exact absurd h (by simp)
  | pr0 :: prs', t => by
      obtain ⟨ih1, ih2, ih3, ih4⟩ :=
        upsert_fold_char key now prs' (upsertRow t (encryptInsert key pr0.1 pr0.2 now))
      simp only [List.foldl_cons]
      rcases upsertRow_cases t (encryptInsert key pr0.1 pr0.2 now) with ⟨hno, hu⟩ | ⟨hyes, hu⟩
      · rw [hu] at ih1 ih2 ih3 ih4 ⊢
        have hkm : ∀ m ∈ t, ¬(rowKey m = insKey pr0.1) := by
          intro m hm hk
          exact hno ⟨m, hm, hk⟩
        refine ⟨?_, ?_, ?_, ?_⟩
        · intro i m h
          have hi : i < t.length := by
            by_contra hge
            rw [List.getElem?_eq_none (by omega)] at h
            exact absurd h (by simp)
          have hup : (t ++ [encryptInsert key pr0.1 pr0.2 now])[i]? = some m := by
            rw [List.getElem?_append_left hi]
            exact h
          have hfin := ih1 i m hup
          rw [hfin, upsertExpected_cons,
            if_neg (hkm m (List.getElem?_mem h))]
        · intro pr hpr
          rcases List.mem_cons.mp hpr with rfl | hpr
          · have hup : (t ++ [encryptInsert key pr.1 pr.2 now])[t.length]? =
                some (encryptInsert key pr.1 pr.2 now) := List.getElem?_concat_length _ _
            have hfin := ih1 t.length _ hup
            refine ⟨upsertExpected key now prs' (encryptInsert key pr.1 pr.2 now),
              List.getElem?_mem hfin, ?_⟩
            rw [rowKey_upsertExpected, rowKey_encryptInsert]
          · exact ih2 pr hpr
        · intro hall
          exact absurd (hall pr0 (List.mem_cons_self _ _)) hno
        · intro i m hge hfold
          by_cases hg2 : (t ++ [encryptInsert key pr0.1 pr0.2 now]).length ≤ i
          · obtain ⟨pr, hpr, hlast, hm⟩ := ih4 i m hg2 hfold
            refine ⟨pr, List.mem_cons_of_mem _ hpr, ?_, hm⟩
            rw [lastWith_cons, hlast]
          · have hieq : i = t.length := by
              rw [List.length_append, List.length_singleton] at hg2
              omega
            subst hieq
            have hup : (t ++ [encryptInsert key pr0.1 pr0.2 now])[t.length]? =
                some (encryptInsert key pr0.1 pr0.2 now) := List.getElem?_concat_length _ _
            have hfin := ih1 t.length _ hup
            rw [hfold] at hfin
            have hm : m = upsertExpected key now prs' (encryptInsert key pr0.1 pr0.2 now) :=
              Option.some.inj hfin
            rcases hq : lastWith (rowKey (encryptInsert key pr0.1 pr0.2 now)) prs'
              with _ | q
            · have hme : m = encryptInsert key pr0.1 pr0.2 now := by
                rw [hm]
                unfold upsertExpected
                rw [hq]
              refine ⟨pr0, List.mem_cons_self _ _, ?_, hme⟩
              rw [hme, lastWith_cons, rowKey_encryptInsert]
              rw [rowKey_encryptInsert] at hq
              rw [hq]
              simp
            · have hme : m = encryptInsert key q.1 q.2 now := by
                rw [hm]
                unfold upsertExpected
                rw [hq]
                simp only [created_encryptInsert]
                exact encryptInsert_eta key q.1 q.2 now
              refine ⟨q, List.mem_cons_of_mem _ (lastWith_some_mem _ _ _ hq), ?_, hme⟩
              have hkq : rowKey m = rowKey (encryptInsert key pr0.1 pr0.2 now) := by
                rw [hme, rowKey_encryptInsert, lastWith_some_key _ _ _ hq,
                  rowKey_encryptInsert]
              rw [hkq, lastWith_cons, hq]
      · rw [hu] at ih1 ih2 ih3 ih4 ⊢
        refine ⟨?_, ?_, ?_, ?_⟩
        · intro i m h
          have hmap : (t.map (fun old =>
              if rowKey old = rowKey (encryptInsert key pr0.1 pr0.2 now) then
                { encryptInsert key pr0.1 pr0.2 now with created_at := old.created_at }
              else old))[i]? = some (if rowKey m = insKey pr0.1 then
                { encryptInsert key pr0.1 pr0.2 now with created_at := m.created_at }
              else m) := by
            rw [List.getElem?_map, h]
            rfl
          have hfin := ih1 i _ hmap
          rw [hfin, upsertExpected_cons]
        · intro pr hpr
          rcases List.mem_cons.mp hpr with rfl | hpr
          · obtain ⟨old, hold, holdk⟩ := hyes
            obtain ⟨j, hj⟩ := List.mem_iff_getElem?.mp hold
            have hmap : (t.map (fun o =>
                if rowKey o = rowKey (encryptInsert key pr.1 pr.2 now) then
                  { encryptInsert key pr.1 pr.2 now with created_at := o.created_at }
                else o))[j]? = some { encryptInsert key pr.1 pr.2 now with
                  created_at := old.created_at } := by
              rw [List.getElem?_map, hj]
              simp [holdk]
            have hfin := ih1 j _ hmap
            refine ⟨_, List.getElem?_mem hfin, ?_⟩
            rw [rowKey_upsertExpected]
            rfl
          · exact ih2 pr hpr
        · intro hall
          have hall' : ∀ pr ∈ prs', ∃ m ∈ t.map (fun old =>
              if rowKey old = rowKey (encryptInsert key pr0.1 pr0.2 now) then
                { encryptInsert key pr0.1 pr0.2 now with created_at := old.created_at }
              else old), rowKey m = insKey pr.1 := by
            intro pr hpr
            obtain ⟨m, hm, hmk⟩ := hall pr (List.mem_cons_of_mem _ hpr)
            refine ⟨_, List.mem_map_of_mem _ hm, ?_⟩
            rw [rowKey_upsertMap]
            exact hmk
          rw [ih3 hall', List.length_map]
        · intro i m hge hfold
          have hge' : (t.map (fun old =>
              if rowKey old = rowKey (encryptInsert key pr0.1 pr0.2 now) then
                { encryptInsert key pr0.1 pr0.2 now with created_at := old.created_at }
              else old)).length ≤ i := by
            rw [List.length_map]
            exact hge
          obtain ⟨pr, hpr, hlast, hm⟩ := ih4 i m hge' hfold
          refine ⟨pr, List.mem_cons_of_mem _ hpr, ?_, hm⟩
          rw [lastWith_cons, hlast]

/-- The last batch entry for a key picks the same message row no matter
which nonce stream it is zipped with. -/
theorem lastWith_zip_fst (k : String × String) :
    ∀ (rows : List MessageInsert) (ns1 ns2 : List NonceTriple),
    rows.length ≤ ns1.length → rows.length ≤ ns2.length →
    (lastWith k (rows.zip ns1)).map Prod.fst = (lastWith k (rows.zip ns2)).map Prod.fst
  | [], ns1, ns2 => by intro _ _; rfl
  | r :: rows', ns1, ns2 => by
      intro hl1 hl2
      cases ns1 with
      | nil => simp at hl1
      | cons n1 ns1' =>
          cases ns2 with
          | nil => simp at hl2
          | cons n2 ns2' =>
              have ih := lastWith_zip_fst k rows' ns1' ns2'
                (by simpa using hl1) (by simpa using hl2)
              rw [List.zip_cons_cons, List.zip_cons_cons, lastWith_cons, lastWith_cons]
              rcases hA : lastWith k (rows'.zip ns1') with _ | q1 <;>
                rcases hB : lastWith k (rows'.zip ns2') with _ | q2
              · by_cases hc : insKey r = k
                · simp [hc]
                · simp [hc]
              · rw [hA, hB] at ih
                simp at ih
              · rw [hA, hB] at ih
                simp at ih
              · rw [hA, hB] at ih
                simpa using ih

/-- The deterministic columns of an upserted row are a function of the
batch row and the preserved `created_at` alone — not of the key, the
nonces or the timestamp. -/
theorem stripRow_encryptInsert_upd (key : List Nat) (r : MessageInsert)
    (ns : NonceTriple) (now c : Int) :
    stripRow { encryptInsert key r ns now with created_at := c } =
      (r.account_email, r.uid, String.map Char.toLower r.sender_email, r.sender_display,
        r.date, r.flags, c) := rfl

/-- An upserted row carries `updated_at = now` even after `created_at`
is preserved. -/
theorem updated_encryptInsert_upd (key : List Nat) (r : MessageInsert) (ns : NonceTriple)
    (now c : Int) :
    ({ encryptInsert key r ns now with created_at := c } : MessageRow).updated_at = now := rfl

/-- Encrypting the same plaintext under two different nonces can never
produce the same stored string: the decoded base64 starts with the
nonce. -/
theorem encrypt_bytes_nonce_ne (key n1 n2 data : List Nat)
    (hkb : ∀ b ∈ key, b < 256)
    (hn1 : n1.length = 12) (hb1 : ∀ b ∈ n1, b < 256)
    (hn2 : n2.length = 12) (hb2 : ∀ b ∈ n2, b < 256)
    (hdb : ∀ b ∈ data, b < 256) (hne : n1 ≠ n2) :
    encrypt_bytes key n1 data ≠ encrypt_bytes key n2 data := by
  intro heq
  have hbound : ∀ (n : List Nat), (∀ b ∈ n, b < 256) →
      ∀ x ∈ n ++ xorBytes data (keystream key n data.length) ++
        gcmTag key n (xorBytes data (keystream key n data.length)), x < 256 := by
    intro n hnb x hx
    rcases List.mem_append.mp hx with hx | hx
    · rcases List.mem_append.mp hx with hx | hx
      · exact hnb x hx
      · exact mem_xorBytes_lt _ _ hdb (keystream_lt key n data.length hkb) x hx
    · exact gcmTag_lt key n _ hkb x hx
  have h1 : base64Decode (encrypt_bytes key n1 data) =
      some (n1 ++ xorBytes data (keystream key n1 data.length) ++
        gcmTag key n1 (xorBytes data (keystream key n1 data.length))) := by
    simp only [encrypt_bytes]
    exact base64_roundtrip _ (hbound n1 hb1)
  have h2 : base64Decode (encrypt_bytes key n2 data) =
      some (n2 ++ xorBytes data (keystream key n2 data.length) ++
        gcmTag key n2 (xorBytes data (keystream key n2 data.length))) := by
    simp only [encrypt_bytes]
    exact base64_roundtrip _ (hbound n2 hb2)
  rw [heq, h2] at h1
  have hc := Option.some.inj h1
  have htake := congrArg (fun l => List.take 12 l) hc
  simp only [List.append_assoc] at htake
  rw [show (12 : Nat) = n2.length from hn2.symm] at htake
  rw [List.take_left] at htake
  rw [show n2.length = n1.length from by omega] at htake
  rw [List.take_left] at htake
  exact hne htake.symm

/-- Claim C2, counterexample: upserting the same one-row batch twice
with the same `now` does not leave the table bit-identical outside
`updated_at` — the second run re-encrypts the subject under a fresh
nonce, so the `subject_encrypted` column changes. -/
theorem C2_upsert_counterexample :
    ¬(List.map rowNoUpdatedAt
        (upsert_messages (List.replicate 32 0)
          (upsert_messages (List.replicate 32 0) []
            [⟨"a@b.c", "1", "D", "s@x.c", "subj", none, none, none, none⟩]
            [⟨List.replicate 12 0, List.replicate 12 0, List.replicate 12 0⟩] 5)
          [⟨"a@b.c", "1", "D", "s@x.c", "subj", none, none, none, none⟩]
          [⟨List.replicate 12 1, List.replicate 12 1, List.replicate 12 1⟩] 5) =
      List.map rowNoUpdatedAt
        (upsert_messages (List.replicate 32 0) []
          [⟨"a@b.c", "1", "D", "s@x.c", "subj", none, none, none, none⟩]
          [⟨List.replicate 12 0, List.replicate 12 0, List.replicate 12 0⟩] 5)) := by
  intro h
  have h' : List.map rowNoUpdatedAt
      [encryptInsert (List.replicate 32 0)
        ⟨"a@b.c", "1", "D", "s@x.c", "subj", none, none, none, none⟩
        ⟨List.replicate 12 1, List.replicate 12 1, List.replicate 12 1⟩ 5] =
      List.map rowNoUpdatedAt
      [encryptInsert (List.replicate 32 0)
        ⟨"a@b.c", "1", "D", "s@x.c", "subj", none, none, none, none⟩
        ⟨List.replicate 12 0, List.replicate 12 0, List.replicate 12 0⟩ 5] := h
  simp only [List.map_cons, List.map_nil, List.cons.injEq, and_true] at h'
  have hsubj : encrypt_string (List.replicate 32 0) (List.replicate 12 1) "subj" =
      encrypt_string (List.replicate 32 0) (List.replicate 12 0) "subj" := by
    have := congrArg (fun p => p.2.2.2.2.1) h'
    exact this
  exact encrypt_bytes_nonce_ne (List.replicate 32 0) (List.replicate 12 1)
    (List.replicate 12 0) (strBytes "subj")
    (by decide) (by decide) (by decide) (by decide) (by decide) (by decide) (by decide) hsubj

/-- Claim C2 (amended): a second upsert of the same batch leaves the
table's length and every deterministic column (everything except
`updated_at` and the freshly re-encrypted `subject_encrypted`,
`snippet_encrypted`, `body_encrypted`) bit-identical position by
position; and across a back-to-back pair of runs every row's
`created_at` is invariant while `updated_at` is non-decreasing. -/
theorem C2_upsert_amended (key : List Nat) (t : List MessageRow)
    (rows : List MessageInsert) (ns1 ns2 : List NonceTriple) (now now2 : Int)
    (h1 : rows.length ≤ ns1.length) (h2 : rows.length ≤ ns2.length) (hnow : now ≤ now2) :
    (upsert_messages key (upsert_messages key t rows ns1 now) rows ns2 now2).length =
      (upsert_messages key t rows ns1 now).length ∧
    (∀ i : Nat,
      ((upsert_messages key (upsert_messages key t rows ns1 now) rows ns2 now2)[i]?).map
          stripRow =
        ((upsert_messages key t rows ns1 now)[i]?).map stripRow) ∧
    (∀ (i : Nat) (m1 m2 : MessageRow),
      (upsert_messages key t rows ns1 now)[i]? = some m1 →
      (upsert_messages key (upsert_messages key t rows ns1 now) rows ns2 now2)[i]? =
        some m2 →
      m2.created_at = m1.created_at ∧ m1.updated_at ≤ m2.updated_at) := by
  obtain ⟨c11, c12, c13, c14⟩ := upsert_fold_char key now (rows.zip ns1) t
  obtain ⟨c21, c22, c23, c24⟩ := upsert_fold_char key now2 (rows.zip ns2)
    ((rows.zip ns1).foldl (fun acc pr => upsertRow acc (encryptInsert key pr.1 pr.2 now)) t)
  simp only [upsert_messages]
  have hpresent : ∀ pr ∈ rows.zip ns2,
      ∃ m ∈ (rows.zip ns1).foldl
        (fun acc pr => upsertRow acc (encryptInsert key pr.1 pr.2 now)) t,
      rowKey m = insKey pr.1 := by
    intro pr hpr
    obtain ⟨pr1, prn⟩ := pr
    have hr : pr1 ∈ rows := (List.of_mem_zip hpr).1
    obtain ⟨j, hj⟩ := List.mem_iff_getElem?.mp hr
    have hjlt : j < rows.length := by
      by_contra hge
      rw [List.getElem?_eq_none (by omega)] at hj
      exact absurd hj (by simp)
    have hn1j : ns1[j]? = some ns1[j] := List.getElem?_eq_getElem (by omega)
    have hzip : (rows.zip ns1)[j]? = some (pr1, ns1[j]) :=
      List.getElem?_zip_eq_some.mpr ⟨hj, hn1j⟩
    obtain ⟨m, hm, hmk⟩ := c12 (pr1, ns1[j]) (List.getElem?_mem hzip)
    exact ⟨m, hm, hmk⟩
  have hlen := c23 hpresent
  have main : ∀ (i : Nat) (m1 : MessageRow),
      ((rows.zip ns1).foldl
        (fun acc pr => upsertRow acc (encryptInsert key pr.1 pr.2 now)) t)[i]? = some m1 →
      stripRow (upsertExpected key now2 (rows.zip ns2) m1) = stripRow m1 ∧
      (upsertExpected key now2 (rows.zip ns2) m1).created_at = m1.created_at ∧
      m1.updated_at ≤ (upsertExpected key now2 (rows.zip ns2) m1).updated_at := by
    intro i m1 hm1
    rcases hl2 : lastWith (rowKey m1) (rows.zip ns2) with _ | pr2
    · have hid : upsertExpected key now2 (rows.zip ns2) m1 = m1 := by
        unfold upsertExpected
        rw [hl2]
      rw [hid]
      exact ⟨rfl, rfl, le_refl _⟩
    · have hl1 : ∃ pr1, lastWith (rowKey m1) (rows.zip ns1) = some pr1 ∧ pr1.1 = pr2.1 := by
        have hfst := lastWith_zip_fst (rowKey m1) rows ns1 ns2 h1 h2
        rw [hl2] at hfst
        rcases hA : lastWith (rowKey m1) (rows.zip ns1) with _ | q1
        · rw [hA] at hfst
          simp at hfst
        · rw [hA] at hfst
          simp only [Option.map_some'] at hfst
          exact ⟨q1, rfl, Option.some.inj hfst⟩
      obtain ⟨pr1, hpr1, hfst⟩ := hl1
      have hshape : m1 = { encryptInsert key pr1.1 pr1.2 now with
          created_at := m1.created_at } := by
        by_cases hi : i < t.length
        · have ht : t[i]? = some t[i] := List.getElem?_eq_getElem hi
          have hx := c11 i t[i] ht
          rw [hm1] at hx
          have hm1e : m1 = upsertExpected key now (rows.zip ns1) t[i] := Option.some.inj hx
          have hkk : rowKey m1 = rowKey t[i] := by
            rw [hm1e, rowKey_upsertExpected]
          rw [hkk] at hpr1
          have hval : upsertExpected key now (rows.zip ns1) t[i] =
              { encryptInsert key pr1.1 pr1.2 now with created_at := t[i].created_at } := by
            unfold upsertExpected
            rw [hpr1]
          have hcr : m1.created_at = t[i].created_at := by
            rw [hm1e, created_upsertExpected]
          rw [hcr, hm1e, hval]
        · have hap := c14 i m1 (by omega) hm1
          obtain ⟨pr1', hpr1m', hlast', hform'⟩ := hap
          rw [hpr1] at hlast'
          have : pr1' = pr1 := (Option.some.inj hlast').symm
          subst this
          rw [hform']
      refine ⟨?_, ?_, ?_⟩
      · have hstep : upsertExpected key now2 (rows.zip ns2) m1 =
            { encryptInsert key pr2.1 pr2.2 now2 with created_at := m1.created_at } := by
          unfold upsertExpected
          rw [hl2]
        rw [hstep]
        conv_rhs => rw [hshape]
        rw [stripRow_encryptInsert_upd, stripRow_encryptInsert_upd, hfst]
      · exact created_upsertExpected key now2 (rows.zip ns2) m1
      · have hstep : upsertExpected key now2 (rows.zip ns2) m1 =
            { encryptInsert key pr2.1 pr2.2 now2 with created_at := m1.created_at } := by
          unfold upsertExpected
          rw [hl2]
        rw [hstep, updated_encryptInsert_upd]
        have hup1 : m1.updated_at = now := by
          conv_lhs => rw [hshape]
          rw [updated_encryptInsert_upd]
        rw [hup1]
        exact hnow
  refine ⟨hlen, ?_, ?_⟩
  · intro i
    rcases hm1 : ((rows.zip ns1).foldl
        (fun acc pr => upsertRow acc (encryptInsert key pr.1 pr.2 now)) t)[i]? with _ | m1
    · have hge : ((rows.zip ns1).foldl
          (fun acc pr => upsertRow acc (encryptInsert key pr.1 pr.2 now)) t).length ≤ i :=
        List.getElem?_eq_none_iff.mp hm1
      rw [List.getElem?_eq_none (by omega), hm1]
    · rw [c21 i m1 hm1, hm1]
      simp only [Option.map_some']
      rw [(main i m1 hm1).1]
  · intro i m1 m2 hm1 hm2
    have := c21 i m1 hm1
    rw [hm2] at this
    have hm2e : m2 = upsertExpected key now2 (rows.zip ns2) m1 := Option.some.inj this
    obtain ⟨_, hcr, hup⟩ := main i m1 hm1
    rw [hm2e]
    exact ⟨hcr, hup⟩

/-- Witness for C2 at a concrete table, batch and pair of timestamps. -/
theorem C2_upsert_amended_witness :
    (upsert_messages [9]
      (upsert_messages [9] []
        [⟨"a@b.c", "1", "D", "s@x.c", "subj", none, none, none, none⟩]
        [⟨[0], [0], [0]⟩] 5)
      [⟨"a@b.c", "1", "D", "s@x.c", "subj", none, none, none, none⟩]
      [⟨[1], [1], [1]⟩] 6).length =
      (upsert_messages [9] []
        [⟨"a@b.c", "1", "D", "s@x.c", "subj", none, none, none, none⟩]
        [⟨[0], [0], [0]⟩] 5).length ∧
    (∀ i : Nat,
      ((upsert_messages [9]
        (upsert_messages [9] []
          [⟨"a@b.c", "1", "D", "s@x.c", "subj", none, none, none, none⟩]
          [⟨[0], [0], [0]⟩] 5)
        [⟨"a@b.c", "1", "D", "s@x.c", "subj", none, none, none, none⟩]
        [⟨[1], [1], [1]⟩] 6)[i]?).map stripRow =
      ((upsert_messages [9] []
        [⟨"a@b.c", "1", "D", "s@x.c", "subj", none, none, none, none⟩]
        [⟨[0], [0], [0]⟩] 5)[i]?).map stripRow) ∧
    (∀ (i : Nat) (m1 m2 : MessageRow),
      (upsert_messages [9] []
        [⟨"a@b.c", "1", "D", "s@x.c", "subj", none, none, none, none⟩]
        [⟨[0], [0], [0]⟩] 5)[i]? = some m1 →
      (upsert_messages [9]
        (upsert_messages [9] []
          [⟨"a@b.c", "1", "D", "s@x.c", "subj", none, none, none, none⟩]
          [⟨[0], [0], [0]⟩] 5)
        [⟨"a@b.c", "1", "D", "s@x.c", "subj", none, none, none, none⟩]
        [⟨[1], [1], [1]⟩] 6)[i]? = some m2 →
      m2.created_at = m1.created_at ∧ m1.updated_at ≤ m2.updated_at) :=
  C2_upsert_amended [9] [] [⟨"a@b.c", "1", "D", "s@x.c", "subj", none, none, none, none⟩]
    [⟨[0], [0], [0]⟩] [⟨[1], [1], [1]⟩] 5 6 (by decide) (by decide) (by decide)

/-- Claim C4, counterexample: the claim states `backoff(k) = 120` s for
every `k ≥ 6`, but the code computes `min(1 · 2^min(6,6), 120) = 64` s
at `k = 6`; the 120-second ceiling never binds. -/
theorem C4_backoff_counterexample :
    compute_backoff 6 = 64 ∧ compute_backoff 6 ≠ 120 := by decide

/-- Claim C4 (amended): `compute_backoff` is monotone in the failure
count for `n₁ < n₂ ≤ 6`, and for every failure count `k ≥ 6` it equals
64 seconds (the exponent saturates at 6 and `2^6 = 64` is below the
120-second ceiling). -/
theorem C4_backoff_amended :
    (∀ n1 n2 : Nat, n1 < n2 → n2 ≤ 6 → compute_backoff n1 ≤ compute_backoff n2) ∧
    (∀ k : Nat, 6 ≤ k → compute_backoff k = 64) := by
  constructor
  · intro n1 n2 h1 h2
    unfold compute_backoff BACKOFF_BASE_SECS BACKOFF_MAX_SECS
    have e1 : min n1 6 = n1 := by omega
    have e2 : min n2 6 = n2 := by omega
    simp only [e1, e2, one_mul]
    have p1 : 2 ^ n1 ≤ 2 ^ n2 := Nat.pow_le_pow_right (by omega) (by omega)
    omega
  · intro k hk
    unfold compute_backoff BACKOFF_BASE_SECS BACKOFF_MAX_SECS
    have e1 : min k 6 = 6 := by omega
    simp [e1]

/-- Witness for C4 at concrete failure counts. -/
theorem C4_backoff_amended_witness :
    compute_backoff 2 ≤ compute_backoff 5 ∧ compute_backoff 9 = 64 :=
  ⟨C4_backoff_amended.1 2 5 (by decide) (by decide), C4_backoff_amended.2 9 (by decide)⟩

/-! ### C10: `providers::fetch_recent` wrapper -/

/-- Claim C10: for every session body (so in particular without any
network connection being opened), the public wrapper rejects
`limit = 0` with the `Other` variant and the exact message, and for
every limit above 200 the blocking body receives the clamped value
200. -/
theorem C10_fetch_recent_wrapper
    (blocking : Nat → Except ProviderError (List EmailSummary)) (limit : Nat)
    (h : 200 < limit) :
    providersFetchRecent blocking 0 =
      .error (.Other "limit must be greater than zero") ∧
    providersFetchRecent blocking limit = blocking 200 := by
  constructor
  · rfl
  · have hz : ¬(limit = 0) := by omega
    have hm : min limit 200 = 200 := by omega
    simp [providersFetchRecent, imapFetchRecent, hz, hm]

/-- Witness for C10 at a concrete limit and session body. -/
theorem C10_fetch_recent_wrapper_witness :
    providersFetchRecent (fun _ => .ok []) 0 =
      .error (.Other "limit must be greater than zero") ∧
    providersFetchRecent (fun n => .ok (List.replicate n ⟨"1", "s", ⟨none, "a@b"⟩, none⟩)) 201 =
      .ok (List.replicate 200 ⟨"1", "s", ⟨none, "a@b"⟩, none⟩) := by
  refine ⟨(C10_fetch_recent_wrapper (fun _ => .ok []) 201 (by decide)).1, ?_⟩
  have h := (C10_fetch_recent_wrapper
    (fun n => .ok (List.replicate n ⟨"1", "s", ⟨none, "a@b"⟩, none⟩)) 201 (by decide)).2
  exact h

/-! ### C8: `Storage::update_sync_state` -/

/-- Claim C8: on an account with existing sync state, an incremental
update with no UID leaves `last_full_sync` and `last_uid` untouched
while always overwriting `last_incremental_sync` and `total_messages`;
in general the two coalesced columns are replaced only by non-null new
values. -/
theorem C8_update_sync_state (old : SyncStateRow) (lastUid : Option String)
    (isFull : Bool) (tm now : Int) :
    ((update_sync_state (some old) none false tm now).last_full_sync = old.last_full_sync ∧
     (update_sync_state (some old) none false tm now).last_uid = old.last_uid) ∧
    (update_sync_state (some old) lastUid isFull tm now).last_incremental_sync = some now ∧
    (update_sync_state (some old) lastUid isFull tm now).total_messages = tm ∧
    (isFull = false →
      (update_sync_state (some old) lastUid isFull tm now).last_full_sync =
        old.last_full_sync) ∧
    (lastUid = none →
      (update_sync_state (some old) lastUid isFull tm now).last_uid = old.last_uid) ∧
    (isFull = true →
      (update_sync_state (some old) lastUid isFull tm now).last_full_sync = some now) ∧
    (∀ u : String, lastUid = some u →
      (update_sync_state (some old) lastUid isFull tm now).last_uid = some u) := by
  refine ⟨⟨rfl, rfl⟩, rfl, rfl, ?_, ?_, ?_, ?_⟩
  · rintro rfl; rfl
  · rintro rfl; rfl
  · rintro rfl; rfl
  · rintro u rfl; rfl

/-- Witness for C8 at a concrete stored row. -/
theorem C8_update_sync_state_witness :
    ((update_sync_state (some ⟨some 5, some 6, some "9", 3⟩) none false 7 10).last_full_sync =
      some 5 ∧
     (update_sync_state (some ⟨some 5, some 6, some "9", 3⟩) none false 7 10).last_uid =
      some "9") ∧
    (update_sync_state (some ⟨some 5, some 6, some "9", 3⟩) none false 7
      10).last_incremental_sync = some 10 ∧
    (update_sync_state (some ⟨some 5, some 6, some "9", 3⟩) none false 7 10).total_messages =
      7 ∧
    (False = false →
      (update_sync_state (some ⟨some 5, some 6, some "9", 3⟩) none false 7 10).last_full_sync =
        some 5) ∧
    ((none : Option String) = none →
      (update_sync_state (some ⟨some 5, some 6, some "9", 3⟩) none false 7 10).last_uid =
        some "9") ∧
    (false = true →
      (update_sync_state (some ⟨some 5, some 6, some "9", 3⟩) none false 7 10).last_full_sync =
        some 10) ∧
    (∀ u : String, (none : Option String) = some u →
      (update_sync_state (some ⟨some 5, some 6, some "9", 3⟩) none false 7 10).last_uid =
        some u) := by
  have h := C8_update_sync_state ⟨some 5, some 6, some "9", 3⟩ none false 7 10
  simpa using h

/-! ### C9: `sanitize_tags` -/

/-- Claim C9: the sanitized list is a sublist of the allowed list (so a
subset presented in the allowed list's order), and an allowed tag is
included exactly when some raw tag, stripped of surrounding whitespace,
equals it up to ASCII case. -/
theorem C9_sanitize_tags (rawTags allowedTags : List (List Char)) :
    (sanitize_tags rawTags allowedTags).Sublist allowedTags ∧
    (∀ tag, tag ∈ sanitize_tags rawTags allowedTags ↔
      (tag ∈ allowedTags ∧
        ∃ r ∈ rawTags, eqIgnoreAsciiCase (trimChars r) tag = true)) := by
  constructor
  · exact List.filter_sublist _
  · intro tag
    simp [sanitize_tags, List.mem_filter, List.any_eq_true]

/-- Witness for C9 on concrete raw and allowed lists. -/
theorem C9_sanitize_tags_witness :
    (sanitize_tags [" Billing ".toList, "spam".toList] ["billing".toList, "urgent".toList]).Sublist
      ["billing".toList, "urgent".toList] ∧
    ("billing".toList ∈
      sanitize_tags [" Billing ".toList, "spam".toList] ["billing".toList, "urgent".toList] ↔
      ("billing".toList ∈ ["billing".toList, "urgent".toList] ∧
        ∃ r ∈ [" Billing ".toList, "spam".toList],
          eqIgnoreAsciiCase (trimChars r) "billing".toList = true)) :=
  ⟨(C9_sanitize_tags [" Billing ".toList, "spam".toList]
      ["billing".toList, "urgent".toList]).1,
   (C9_sanitize_tags [" Billing ".toList, "spam".toList]
      ["billing".toList, "urgent".toList]).2 "billing".toList⟩

/-! ### C3: remote-delete invariant -/

/-- Claim C3: every `mark_deleted_remote` update the remote-delete
worker issues carries either a success timestamp with no error, an
error with no timestamp, or clears both — never both fields at once —
and applying any such call (or the reconciler's clearing call) to a
message row re-establishes the invariant that a set `remote_deleted_at`
entails a null `remote_error`.  (`Storage::mark_deleted_remote` itself
is modelled from the spec, being absent from src/.) -/
theorem C3_remote_delete_invariant (uids : List String)
    (batchResult : Option ProviderError) (forceBatch : Bool)
    (singleResult : String → Option ProviderError) (tsOf : String → Int) :
    (∀ c ∈ workerMarkCalls uids batchResult forceBatch singleResult tsOf,
      (c.remote_deleted_at = none ∨ c.remote_error = none) ∧
      ∀ row : RemoteDeleteCols,
        (mark_deleted_remote row c.remote_deleted_at c.remote_error).remote_deleted_at.isSome →
        (mark_deleted_remote row c.remote_deleted_at c.remote_error).remote_error = none) ∧
    (∀ uid row,
      (mark_deleted_remote row (reconcilerClearCall uid).remote_deleted_at
        (reconcilerClearCall uid).remote_error).remote_error = none) := by
  constructor
  · intro c hc
    have hshape : c.remote_deleted_at = none ∨ c.remote_error = none := by
      unfold workerMarkCalls at hc
      cases batchResult with
      | none =>
          obtain ⟨u, _, rfl⟩ := List.mem_map.mp hc
          exact Or.inr rfl
      | some err =>
          by_cases hrf : (is_rate_limit_error err && forceBatch) = true
          · simp only [hrf, if_true] at hc
            simp at hc
          · simp only [hrf, if_false] at hc
            obtain ⟨u, _, rfl⟩ := List.mem_map.mp hc
            cases hs : singleResult u with
            | none => simp [hs]
            | some e => simp [hs]
    refine ⟨hshape, ?_⟩
    intro row
    rcases hshape with h | h
    · intro hsome
      rw [mark_deleted_remote, h] at hsome
      simp at hsome
    · intro _
      rw [mark_deleted_remote, h]
  · intro uid row
    rfl

/-- Witness for C3: a mixed batch (one success, one failure) under the
per-UID fallback path. -/
theorem C3_remote_delete_invariant_witness :
    (∀ c ∈ workerMarkCalls ["1", "2"] (some (.Imap "rate limit")) false
        (fun u => if u = "2" then some (.Imap "no such message") else none) (fun _ => 42),
      (c.remote_deleted_at = none ∨ c.remote_error = none) ∧
      ∀ row : RemoteDeleteCols,
        (mark_deleted_remote row c.remote_deleted_at c.remote_error).remote_deleted_at.isSome →
        (mark_deleted_remote row c.remote_deleted_at c.remote_error).remote_error = none) ∧
    (∀ uid row,
      (mark_deleted_remote row (reconcilerClearCall uid).remote_deleted_at
        (reconcilerClearCall uid).remote_error).remote_error = none) :=
  C3_remote_delete_invariant ["1", "2"] (some (.Imap "rate limit")) false
    (fun u => if u = "2" then some (.Imap "no such message") else none) (fun _ => 42)

/-! ### C6: windowed UID enumeration -/

/-- Every element surviving `dedupConsec` was in the input. -/
theorem dedupConsec_subset : ∀ (l : List Nat), ∀ x ∈ dedupConsec l, x ∈ l
  | [] => by simp [dedupConsec]
  | [a] => by simp [dedupConsec]
  | a :: b :: rest => by
      intro x hx
      rw [dedupConsec] at hx
      by_cases hab : a = b
      · simp only [hab, if_true] at hx
        have := dedupConsec_subset (b :: rest) x hx
        simp only [List.mem_cons] at this ⊢
        tauto
      · simp only [hab, if_false, List.mem_cons] at hx
        rcases hx with rfl | hx
        · simp
        · have := dedupConsec_subset (b :: rest) x hx
          simp [List.mem_cons] at this ⊢
          tauto

/-- On a `≤`-sorted list, removing consecutive duplicates yields a
strictly sorted list. -/
theorem dedupConsec_pairwise_lt : ∀ (l : List Nat), l.Pairwise (· ≤ ·) →
    (dedupConsec l).Pairwise (· < ·)
  | [] => by simp [dedupConsec]
  | [a] => by simp [dedupConsec]
  | a :: b :: rest => by
      intro h
      rw [dedupConsec]
      have htail : (b :: rest).Pairwise (· ≤ ·) := h.tail
      have hih := dedupConsec_pairwise_lt (b :: rest) htail
      by_cases hab : a = b
      · simpa [hab] using hih
      · simp only [hab, if_false]
        refine List.Pairwise.cons ?_ hih
        intro x hx
        have hxm : x ∈ b :: rest := dedupConsec_subset _ x hx
        have hab' : a ≤ b := (List.pairwise_cons.mp h).1 b (by simp)
        have haltb : a < b := lt_of_le_of_ne hab' hab
        rcases List.mem_cons.mp hxm with rfl | hxr
        · exact haltb
        · have hbx : b ≤ x := (List.pairwise_cons.mp htail).1 x hxr
          omega

/-- Claim C6: whenever a windowed `UID SEARCH` returns at least 900 UIDs
and the span exceeds one day, the window is split at its midpoint
instead of being accepted; with a span of at most one day the truncated
result is accepted; and the final enumerated UID list is sorted with no
duplicates. -/
theorem C6_windowed_enumeration (search : Int → Int → List Nat)
    (searchSince : Int → List Nat) (since b start e : Int)
    (hlt : start < e) (hcap : MAX_UIDS_PER_SEARCH ≤ (search start e).length) :
    (1 < e - start →
      collectWindow search start e =
        collectWindow search start (start + max ((e - start) / 2) 1) ++
          collectWindow search (start + max ((e - start) / 2) 1) e) ∧
    (e - start ≤ 1 → collectWindow search start e = search start e) ∧
    List.Sorted (· ≤ ·) (collect_uids_for_window search searchSince since (some b)) ∧
    (collect_uids_for_window search searchSince since (some b)).Nodup := by
  have hle := fun a b : Nat => (decide (a ≤ b))
  have hsorted :
      ((collectWindow search since b).mergeSort (fun a b => decide (a ≤ b))).Pairwise
        (· ≤ ·) := by
    have h := @List.sorted_mergeSort Nat (fun a b : Nat => decide (a ≤ b))
      (fun a b c hab hbc => by
        simp only [decide_eq_true_eq] at hab hbc ⊢
        omega)
      (fun a b => by simp [Nat.le_total])
      (collectWindow search since b)
    exact h.imp (fun hx => by simpa using hx)
  have hlt' := dedupConsec_pairwise_lt _ hsorted
  refine ⟨?_, ?_, ?_, ?_⟩
  · intro hspan
    rw [collectWindow]
    rw [if_neg (by omega)]
    rw [dif_pos ⟨hcap, hspan⟩]
    rw [dif_pos (by constructor <;> omega)]
  · intro hspan
    rw [collectWindow]
    rw [if_neg (by omega)]
    rw [dif_neg (by omega)]
  · exact hlt'.imp (fun hx => le_of_lt hx)
  · exact List.Pairwise.imp (fun hx => Nat.ne_of_lt hx) hlt'

/-- Witness for C6: a server that returns 900 UIDs on wide windows and
a short tail on one-day windows. -/
theorem C6_windowed_enumeration_witness :
    (1 < (4 : Int) - 0 →
      collectWindow (fun s e => if 1 < e - s then List.range 900 else [3, 1]) 0 4 =
        collectWindow (fun s e => if 1 < e - s then List.range 900 else [3, 1]) 0
            (0 + max (((4 : Int) - 0) / 2) 1) ++
          collectWindow (fun s e => if 1 < e - s then List.range 900 else [3, 1])
            (0 + max (((4 : Int) - 0) / 2) 1) 4) ∧
    ((4 : Int) - 0 ≤ 1 →
      collectWindow (fun s e => if 1 < e - s then List.range 900 else [3, 1]) 0 4 =
        (fun s e : Int => if 1 < e - s then List.range 900 else [3, 1]) 0 4) ∧
    List.Sorted (· ≤ ·)
      (collect_uids_for_window (fun s e => if 1 < e - s then List.range 900 else [3, 1])
        (fun _ => []) 0 (some 4)) ∧
    (collect_uids_for_window (fun s e => if 1 < e - s then List.range 900 else [3, 1])
      (fun _ => []) 0 (some 4)).Nodup :=
  C6_windowed_enumeration (fun s e => if 1 < e - s then List.range 900 else [3, 1])
    (fun _ => []) 0 4 0 4 (by decide) (by norm_num [MAX_UIDS_PER_SEARCH])

/-! ### C7: `extract_body_snippet` -/

/-- Tokens produced by the `split_whitespace` scan are nonempty, free
of whitespace characters, and drawn from the input (or the carried
accumulator). -/
theorem splitWsAux_props : ∀ (s acc : List Char),
    (∀ c ∈ acc, rustIsWhitespace c = false) →
    ∀ t ∈ splitWsAux s acc,
      t ≠ [] ∧ (∀ c ∈ t, rustIsWhitespace c = false) ∧ (∀ c ∈ t, c ∈ s ∨ c ∈ acc)
  | [], acc => by
      intro hacc t ht
      rw [splitWsAux] at ht
      by_cases he : acc.isEmpty = true
      · rw [if_pos he] at ht
        simp at ht
      · rw [if_neg he] at ht
        rw [List.mem_singleton] at ht
        subst ht
        have hne : acc ≠ [] := by simpa [List.isEmpty_iff] using he
        refine ⟨by simpa using hne, ?_, ?_⟩
        · intro c hc; exact hacc c (by simpa using hc)
        · intro c hc; exact Or.inr (by simpa using hc)
  | c :: rest, acc => by
      intro hacc t ht
      rw [splitWsAux] at ht
      by_cases hws : rustIsWhitespace c = true
      · rw [if_pos hws] at ht
        by_cases he : acc.isEmpty = true
        · rw [if_pos he] at ht
          have hrec := splitWsAux_props rest [] (by simp) t ht
          exact ⟨hrec.1, hrec.2.1, fun d hd => by
            rcases hrec.2.2 d hd with h | h
            · exact Or.inl (List.mem_cons_of_mem _ h)
            · simp at h⟩
        · rw [if_neg he] at ht
          rcases List.mem_cons.mp ht with rfl | ht
          · have hne : acc ≠ [] := by simpa [List.isEmpty_iff] using he
            refine ⟨by simpa using hne, ?_, ?_⟩
            · intro d hd; exact hacc d (by simpa using hd)
            · intro d hd; exact Or.inr (by simpa using hd)
          · have hrec := splitWsAux_props rest [] (by simp) t ht
            exact ⟨hrec.1, hrec.2.1, fun d hd => by
              rcases hrec.2.2 d hd with h | h
              · exact Or.inl (List.mem_cons_of_mem _ h)
              · simp at h⟩
      · rw [if_neg hws] at ht
        have hacc' : ∀ d ∈ c :: acc, rustIsWhitespace d = false := by
          intro d hd
          rcases List.mem_cons.mp hd with rfl | hd
          · simpa using hws
          · exact hacc d hd
        have hrec := splitWsAux_props rest (c :: acc) hacc' t ht
        refine ⟨hrec.1, hrec.2.1, fun d hd => ?_⟩
        rcases hrec.2.2 d hd with h | h
        · exact Or.inl (List.mem_cons_of_mem _ h)
        · rcases List.mem_cons.mp h with rfl | h
          · exact Or.inl (List.mem_cons_self _ _)
          · exact Or.inr h

/-- Members of an interspersed list are original members or the
separator. -/
theorem mem_intersperse_sep : ∀ (ts : List (List Char)) (l : List Char),
    l ∈ ts.intersperse [' '] → l ∈ ts ∨ l = [' ']
  | [], l => by simp [List.intersperse]
  | [t], l => by
      intro h
      simp [List.intersperse] at h
      exact Or.inl (by simp [h])
  | t :: t' :: rest, l => by
      intro h
      rw [List.intersperse_cons₂] at h
      rcases List.mem_cons.mp h with rfl | h
      · exact Or.inl (List.mem_cons_self _ _)
      · rcases List.mem_cons.mp h with rfl | h
        · exact Or.inr rfl
        · rcases mem_intersperse_sep (t' :: rest) l h with h' | h'
          · exact Or.inl (List.mem_cons_of_mem _ h')
          · exact Or.inr h'

/-- Characters of the space-joined token list come from a token or are
the separating space. -/
theorem mem_joinSpace (ts : List (List Char)) (c : Char) (h : c ∈ joinSpace ts) :
    (∃ t ∈ ts, c ∈ t) ∨ c = ' ' := by
  unfold joinSpace at h
  obtain ⟨l, hl, hcl⟩ := List.mem_flatten.mp h
  rcases mem_intersperse_sep ts l hl with h' | rfl
  · exact Or.inl ⟨l, h', hcl⟩
  · simp at hcl
    exact Or.inr hcl

/-- Joining a nonempty token list onto a head token. -/
theorem joinSpace_cons_of_ne (x : List Char) (ts : List (List Char)) (h : ts ≠ []) :
    joinSpace (x :: ts) = x ++ ' ' :: joinSpace ts := by
  cases ts with
  | nil => exact absurd rfl h
  | cons t rest =>
      unfold joinSpace
      rw [List.intersperse_cons₂]
      simp

/-- Appending one token to a nonempty token list extends the join by a
space and the token. -/
theorem joinSpace_concat : ∀ (xs : List (List Char)) (y : List Char), xs ≠ [] →
    joinSpace (xs ++ [y]) = joinSpace xs ++ ' ' :: y
  | [], y => by intro h; exact absurd rfl h
  | [x], y => by
      intro _
      rw [List.cons_append, List.nil_append, joinSpace_cons_of_ne x [y] (by simp)]
      simp [joinSpace]
  | x :: x' :: rest, y => by
      intro _
      rw [List.cons_append, joinSpace_cons_of_ne x ((x' :: rest) ++ [y]) (by simp),
        joinSpace_cons_of_ne x (x' :: rest) (by simp),
        joinSpace_concat (x' :: rest) y (by simp)]
      simp

/-- `dropWhile` is the identity when the head does not satisfy the
predicate. -/
theorem dropWhile_eq_self_of_head (p : Char → Bool) (l : List Char)
    (h : ∀ c, l.head? = some c → p c = false) : l.dropWhile p = l := by
  cases l with
  | nil => rfl
  | cons a as =>
      rw [List.dropWhile_cons, h a rfl]
      simp

/-- `str::trim` is the identity on a string whose first and last
characters are not whitespace. -/
theorem trimChars_eq_self (l : List Char)
    (hhead : ∀ c, l.head? = some c → rustIsWhitespace c = false)
    (hlast : ∀ c, l.getLast? = some c → rustIsWhitespace c = false) :
    trimChars l = l := by
  unfold trimChars
  rw [dropWhile_eq_self_of_head _ _ hhead]
  rw [dropWhile_eq_self_of_head _ _ (fun c hc => hlast c (by rwa [List.head?_reverse] at hc))]
  exact List.reverse_reverse l

/-- On a token list whose tokens are nonempty and whitespace-free, the
space-join has a non-whitespace first and last character, so `trim` is
the identity. -/
theorem trimChars_joinSpace (ts : List (List Char))
    (hne : ∀ t ∈ ts, t ≠ []) (hws : ∀ t ∈ ts, ∀ c ∈ t, rustIsWhitespace c = false) :
    trimChars (joinSpace ts) = joinSpace ts := by
  rcases List.eq_nil_or_concat ts with rfl | ⟨xs, y, rfl⟩
  · rfl
  · rw [List.concat_eq_append]
    apply trimChars_eq_self
    · intro c hc
      rcases xs with _ | ⟨x, xs'⟩
      · simp only [List.nil_append] at hc ⊢
        have : joinSpace [y] = y := by simp [joinSpace]
        rw [this] at hc
        obtain ⟨ys, hy⟩ := List.head?_eq_some_iff.mp hc
        exact hws y (by simp) c (by simp [hy])
      · rw [List.cons_append] at hc
        rw [joinSpace_cons_of_ne x (xs' ++ [y]) (by simp)] at hc
        rw [List.head?_append] at hc
        have hxne : x ≠ [] := hne x (by simp)
        have hxs : x.head?.isSome := List.head?_isSome.mpr hxne
        obtain ⟨cx, hcx⟩ := Option.isSome_iff_exists.mp hxs
        rw [hcx] at hc
        simp only [Option.or_some] at hc
        obtain ⟨ys, hy⟩ := List.head?_eq_some_iff.mp hcx
        cases hc
        exact hws x (by simp) c (by simp [hy])
    · intro c hc
      have hyne : y ≠ [] := hne y (by simp)
      have hylast : (joinSpace (xs ++ [y])).getLast? = y.getLast? := by
        rcases xs with _ | ⟨x, xs'⟩
        · simp [joinSpace]
        · rw [joinSpace_concat (x :: xs') y (by simp), List.getLast?_append]
          have : (' ' :: y).getLast? = y.getLast? := by
            have : (' ' :: y) = [' '] ++ y := rfl
            rw [this, List.getLast?_append]
            have hys : y.getLast?.isSome := by
              rcases List.eq_nil_or_concat y with rfl | ⟨zs, z, rfl⟩
              · exact absurd rfl hyne
              · simp [List.getLast?_concat]
            obtain ⟨cy, hcy⟩ := Option.isSome_iff_exists.mp hys
            rw [hcy]
            rfl
          rw [this]
          have hys : y.getLast?.isSome := by
            rcases List.eq_nil_or_concat y with rfl | ⟨zs, z, rfl⟩
            · exact absurd rfl hyne
            · simp [List.getLast?_concat]
          obtain ⟨cy, hcy⟩ := Option.isSome_iff_exists.mp hys
          rw [hcy]
          rfl
      rw [hylast] at hc
      exact hws y (by simp) c (List.mem_of_getLast?_eq_some hc)

/-- Byte length equals character count on ASCII strings. -/
theorem byteLen_ascii : ∀ (l : List Char), (∀ c ∈ l, c.toNat < 128) →
    byteLen l = l.length
  | [] => by intro _; rfl
  | c :: rest => by
      intro h
      have hc : utf8Len c = 1 := by
        unfold utf8Len
        rw [if_pos (h c (by simp))]
      have h2 := byteLen_ascii rest (fun d hd => h d (List.mem_cons_of_mem _ hd))
      unfold byteLen at h2 ⊢
      simp only [List.map_cons, List.sum_cons, hc, List.length_cons, h2]
      omega

/-- Byte-prefix extraction equals `take` on ASCII strings. -/
theorem bytePrefix_ascii : ∀ (l : List Char) (n : Nat), (∀ c ∈ l, c.toNat < 128) →
    bytePrefix l n = l.take n
  | [], n => by intro _; simp [bytePrefix]
  | c :: rest, n => by
      intro h
      have hc : utf8Len c = 1 := by
        unfold utf8Len
        rw [if_pos (h c (by simp))]
      rw [bytePrefix, hc]
      by_cases hn : 1 ≤ n
      · rw [if_pos hn, bytePrefix_ascii rest (n - 1) (fun d hd => h d (List.mem_cons_of_mem _ hd))]
        obtain ⟨m, rfl⟩ : ∃ m, n = m + 1 := ⟨n - 1, by omega⟩
        simp
      · have : n = 0 := by omega
        subst this
        simp

/-- Claim C7, counterexample: on a body of 141 two-byte characters the
code truncates (282 bytes exceed the 280-*byte* bound, cutting at byte
280) while the claim's 280-*character* rule demands the untruncated 141
characters. -/
theorem C7_snippet_counterexample :
    extract_body_snippet (List.replicate 141 'é') ≠
      snippetSpecChars (List.replicate 141 'é') := by decide

/-- Claim C7 (amended): the snippet truncation counts UTF-8 bytes, not
characters — the snippet equals the claim's character-based description
whenever the fetched body slice is ASCII (where bytes and characters
coincide). -/
theorem C7_snippet_amended (raw : List Char) (hascii : ∀ c ∈ raw, c.toNat < 128) :
    extract_body_snippet raw = snippetSpecChars raw := by
  have htok : ∀ t ∈ (splitWs (collapseCrLf raw)).take 80,
      t ≠ [] ∧ (∀ c ∈ t, rustIsWhitespace c = false) ∧
        (∀ c ∈ t, c ∈ collapseCrLf raw ∨ c ∈ ([] : List Char)) := by
    intro t ht
    exact splitWsAux_props (collapseCrLf raw) [] (by simp) t (List.mem_of_mem_take ht)
  have htrim : trimChars (joinSpace ((splitWs (collapseCrLf raw)).take 80)) =
      joinSpace ((splitWs (collapseCrLf raw)).take 80) :=
    trimChars_joinSpace _ (fun t ht => (htok t ht).1) (fun t ht => (htok t ht).2.1)
  have hcoll : ∀ c ∈ joinSpace ((splitWs (collapseCrLf raw)).take 80), c.toNat < 128 := by
    intro c hc
    rcases mem_joinSpace _ c hc with ⟨t, ht, hct⟩ | rfl
    · rcases (htok t ht).2.2 c hct with h | h
      · unfold collapseCrLf at h
        obtain ⟨d, hd, hdc⟩ := List.mem_map.mp h
        by_cases hcr : d = '\r' ∨ d = '\n'
        · rw [if_pos hcr] at hdc
          subst hdc
          decide
        · rw [if_neg hcr] at hdc
          subst hdc
          exact hascii d hd
      · simp at h
    · decide
  simp only [extract_body_snippet, snippetSpecChars]
  rw [htrim, byteLen_ascii _ hcoll, bytePrefix_ascii _ 280 hcoll]

/-- Witness for C7 on a concrete ASCII body. -/
theorem C7_snippet_amended_witness :
    (∀ c ∈ "hello\r\nworld  again".toList, c.toNat < 128) ∧
    extract_body_snippet "hello\r\nworld  again".toList =
      snippetSpecChars "hello\r\nworld  again".toList :=
  ⟨by decide, C7_snippet_amended "hello\r\nworld  again".toList (by decide)⟩

/-! ### C5: `fetch_recent_blocking` sequence range -/

/-- Claim C5 is a code bug: with `EXISTS = 10` and `limit = 3` the code
fetches the sequence range `7:10` — four messages, one more than the
claimed `(EXISTS-n+1):EXISTS = 8:10` — because `start_seq` is computed
as `EXISTS - n` instead of `EXISTS - n + 1` (the code's own comment
says it fetches "the last N messages"). -/
theorem C5_fetch_recent_range_bug :
    fetchRecentSeqRange 10 3 = (7, 10) ∧
    (10 : Nat) - 3 + 1 = 8 ∧
    10 - (fetchRecentSeqRange 10 3).1 + 1 = 4 := by decide

end MailClient
